import Mathlib

/- Verification of the automation script in src/main.py (Krishna_Bot_2.0).

   Modelling conventions:
   * Python strings are `List Char`; `String.data` is used to write literals.
   * Python float arithmetic in the image-preparation step is modelled as exact
     rational arithmetic (`ℚ`); `int()` is truncation toward zero.
   * The character classes of the regular expression used by `textwrap`
     (`\w`, `[^\d\W]`) are modelled over ASCII.
   * External collaborators (Gemini, Pollinations, edge-tts, ffmpeg, YouTube)
     are parameters of the embedded functions: each call site consumes an
     outcome supplied by the environment, exactly where the code performs the
     call.  The filesystem is a list of paths. -/

/-! ### Python string primitives -/

/-- The six characters of Python's `string.whitespace` (also the class
`_whitespace` used throughout `textwrap`): tab, newline, vertical tab,
form feed, carriage return, space. -/
def isPySpace (c : Char) : Bool :=
  c == ' ' || c == Char.ofNat 9 || c == Char.ofNat 10 || c == Char.ofNat 11 ||
    c == Char.ofNat 12 || c == Char.ofNat 13

/-- Python `str.strip()` (ASCII whitespace fragment). -/
def pyStrip (s : List Char) : List Char :=
  ((s.dropWhile isPySpace).reverse.dropWhile isPySpace).reverse

/-- Python `str.expandtabs(8)`: a tab advances the column to the next multiple
of 8; newline and carriage return reset the column. -/
def expandTabsAux (col : Nat) : List Char → List Char
  | [] => []
  | c :: t =>
    if c == Char.ofNat 9 then
      List.replicate (8 - col % 8) ' ' ++ expandTabsAux (col + (8 - col % 8)) t
    else if c == Char.ofNat 10 || c == Char.ofNat 13 then
      c :: expandTabsAux 0 t
    else
      c :: expandTabsAux (col + 1) t

/-- `TextWrapper._munge_whitespace` with the default options
(`expand_tabs=True`, `replace_whitespace=True`): expand tabs, then translate
each `_whitespace` character to a space. -/
def mungeWhitespace (s : List Char) : List Char :=
  (expandTabsAux 0 s).map (fun c => if isPySpace c then ' ' else c)

/-! ### The `textwrap` word splitter

`TextWrapper._split` splits the munged text with `wordsep_re`
(`break_on_hyphens=True`).  The regex alternates: a whitespace run; an em-dash
run `(?<=wp)-{2,}(?=\w)`; or a lazy word `\S+?` ended by a hyphenated-word
break, by end-of-word (whitespace or end of string), or by a following
em-dash.  The functions below implement exactly that match discipline. -/

/-- ASCII fragment of the regex class `\w`. -/
def isWordChar (c : Char) : Bool := c.isAlphanum || c == '_'

/-- ASCII fragment of the regex class `[^\d\W]` (word characters that are not
digits). -/
def isLetterChar (c : Char) : Bool := c.isAlpha || c == '_'

/-- The regex class `[\w!"\'&.,?]` (`word_punct` in `textwrap`). -/
def isWordPunct (c : Char) : Bool :=
  isWordChar c || c == '!' || c == '"' || c == Char.ofNat 39 || c == '&' ||
    c == '.' || c == ',' || c == '?'

/-- Length of the maximal run of hyphens at the head, and the remainder. -/
def dashRun : List Char → Nat × List Char
  | [] => (0, [])
  | c :: t => if c == '-' then ((dashRun t).1 + 1, (dashRun t).2) else (0, c :: t)

/-- The lookahead `(?=-{2,}\w)`: at least two hyphens whose maximal run is
followed by a `\w` character. -/
def dashLookahead (s : List Char) : Bool :=
  2 ≤ (dashRun s).1 && ((dashRun s).2.head?.elim false isWordChar)

/-- The em-dash alternative `(?<=wp)-{2,}(?=\w)` tried at a position whose
preceding character is `p1`. -/
def emDashAt (p1 : Option Char) (s : List Char) : Bool :=
  (p1.elim false isWordPunct) && dashLookahead s

/-- The lookahead `(?=[^\d\W]-?[^\d\W])` of the hyphenated-word break. -/
def hyphenLookahead : List Char → Bool
  | a :: b :: r => isLetterChar a && (isLetterChar b || (b == '-' && (r.head?.elim false isLetterChar)))
  | _ => false

/-- The lazy scan of the word alternative
`\S+? (?: -(?:(?<=[^\d\W]{2}-)|(?<=[^\d\W]-[^\d\W]-))(?=[^\d\W]-?[^\d\W]) |
(?=\s|\Z) | (?<=wp)(?=-{2,}\w) )`, starting at a boundary whose three
preceding characters are `q3`, `q2`, `q1` (`q1` nearest).  Returns the
characters consumed from here on and the remainder of the string. -/
def scanWord (q3 q2 q1 : Option Char) : List Char → List Char × List Char
  | [] => ([], [])
  | c :: t =>
    if isPySpace c then ([], c :: t)
    else if c == '-' &&
        ((q2.elim false isLetterChar && q1.elim false isLetterChar) ||
         (q3.elim false isLetterChar && q2 == some '-' && q1.elim false isLetterChar))
        && hyphenLookahead t then
      ([c], t)
    else if emDashAt q1 (c :: t) then ([], c :: t)
    else
      let r := scanWord q2 q1 (some c) t
      (c :: r.1, r.2)

/-- Last two characters of the context after appending `cs`. -/
def pushCtx (p2 p1 : Option Char) (cs : List Char) : Option Char × Option Char :=
  match cs.reverse with
  | [] => (p2, p1)
  | [c] => (p1, some c)
  | c :: d :: _ => (some d, some c)

/-- One pass of `wordsep_re` matching over the text, fuelled (each chunk is
nonempty, so `s.length` is enough fuel).  `p2`, `p1` are the two characters
immediately before the current position (for the lookbehinds). -/
def splitChunksF : Nat → Option Char × Option Char → List Char → List (List Char)
  | 0, _, _ => []
  | _, _, [] => []
  | fuel + 1, (p2, p1), c :: t =>
    if isPySpace c then
      ((c :: t).takeWhile isPySpace) ::
        splitChunksF fuel (pushCtx p2 p1 ((c :: t).takeWhile isPySpace)) ((c :: t).dropWhile isPySpace)
    else if emDashAt p1 (c :: t) then
      ((c :: t).take (dashRun (c :: t)).1) ::
        splitChunksF fuel (some '-', some '-') ((c :: t).drop (dashRun (c :: t)).1)
    else
      (c :: (scanWord p2 p1 (some c) t).1) ::
        splitChunksF fuel (pushCtx p2 p1 (c :: (scanWord p2 p1 (some c) t).1)) ((scanWord p2 p1 (some c) t).2)

/-- `TextWrapper._split` on the munged text (empty chunks cannot arise, so the
final filter of the Python code is omitted). -/
def splitChunks (s : List Char) : List (List Char) := splitChunksF s.length (none, none) s

/-! ### `textwrap` line building (`_wrap_chunks`, `_handle_long_word`) -/

/-- The inner loop of `_wrap_chunks`: pop chunks onto the current line while
they fit.  Returns (popped chunks, remaining chunks). -/
def fitChunks (width : Nat) (curLen : Nat) : List (List Char) → List (List Char) × List (List Char)
  | [] => ([], [])
  | c :: rest =>
    if curLen + c.length ≤ width then
      let r := fitChunks width (curLen + c.length) rest
      (c :: r.1, r.2)
    else ([], c :: rest)

/-- Python `chunk.rfind('-', 0, stop)`: the greatest index `< stop` holding a
hyphen. -/
def pyRfindHyphen (chunk : List Char) (stop : Nat) : Option Nat :=
  (List.range (min stop chunk.length)).reverse.find? (fun i => chunk.getD i ' ' == '-')

/-- `TextWrapper._handle_long_word` with `break_long_words=True`,
`break_on_hyphens=True`: split the head chunk at the remaining space, or just
after the last hyphen before it when one exists (preceded by a non-hyphen).
Returns (piece for the current line, remainder of the chunk). -/
def handleLongWord (width curLen : Nat) (chunk : List Char) : List Char × List Char :=
  let spaceLeft := if width < 1 then 1 else width - curLen
  let e :=
    if spaceLeft < chunk.length then
      match pyRfindHyphen chunk spaceLeft with
      | some hy =>
        if 0 < hy && (chunk.take hy).any (fun c => !(c == '-')) then hy + 1 else spaceLeft
      | none => spaceLeft
    else spaceLeft
  (chunk.take e, chunk.drop e)

/-- The line-filling part of one iteration of the outer `while chunks:` loop
of `_wrap_chunks` (empty indents, no `max_lines`): fill the line while chunks
fit, break a too-long head chunk, drop a trailing whitespace chunk, and emit
the line if nonempty.  Returns (emitted line, remaining chunks). -/
def wrapLine (width : Nat) (cs1 : List (List Char)) :
    Option (List Char) × List (List Char) :=
  let f := fitChunks width 0 cs1
  let curLen := (f.1.map List.length).sum
  let g : List (List Char) × List (List Char) :=
    match f.2 with
    | c :: tail =>
      if width < c.length then
        let hl := handleLongWord width curLen c
        (f.1 ++ [hl.1], hl.2 :: tail)
      else (f.1, f.2)
    | [] => (f.1, [])
  let line := match g.1.getLast? with
    | some l => if l.all isPySpace then g.1.dropLast else g.1
    | none => g.1
  if line.isEmpty then (none, g.2) else (some line.flatten, g.2)

/-- One iteration of the outer `while chunks:` loop of `_wrap_chunks`
(`drop_whitespace=True`): optionally drop a leading whitespace chunk (only
when a line was already emitted), then build the line with `wrapLine`. -/
def wrapStep (width : Nat) (isFirst : Bool) (cs0 : List (List Char)) :
    Option (List Char) × List (List Char) :=
  wrapLine width
    (match cs0 with
      | c :: rest => if !isFirst && c.all isPySpace then rest else cs0
      | [] => [])

/-- Fuel bound for the outer loop: every iteration removes a chunk or shortens
the head chunk, so total length plus chunk count suffices. -/
def chunksMeasure (cs : List (List Char)) : Nat := (cs.map List.length).sum + cs.length

/-- The outer loop of `_wrap_chunks`, fuelled. -/
def wrapLoopF : Nat → Nat → Bool → List (List Char) → List (List Char)
  | 0, _, _, _ => []
  | _, _, _, [] => []
  | fuel + 1, width, isFirst, c :: t =>
    match wrapStep width isFirst (c :: t) with
    | (some line, rest) => line :: wrapLoopF fuel width false rest
    | (none, rest) => wrapLoopF fuel width isFirst rest

/-- `textwrap.TextWrapper(width=w).wrap(text)` with all other options left at
their defaults. -/
def textwrapWrap (width : Nat) (text : List Char) : List (List Char) :=
  let cs := splitChunks (mungeWhitespace text)
  wrapLoopF (chunksMeasure cs + 1) width true cs

/-- The wrapped caption lines computed by `render_video` (src/main.py line
203-204): `textwrap.TextWrapper(width=25).wrap(quote.strip())`. -/
def wrappedLines (quote : List Char) : List (List Char) :=
  textwrapWrap 25 (pyStrip quote)

/-- Whitespace-separated words of a string (used to state the word-sequence
property of claim C2). -/
def wordsAux : List Char → List Char → List (List Char)
  | [], acc => if acc.isEmpty then [] else [acc.reverse]
  | c :: t, acc =>
    if isPySpace c then
      if acc.isEmpty then wordsAux t [] else acc.reverse :: wordsAux t []
    else wordsAux t (c :: acc)

/-- The sequence of maximal non-whitespace runs of a string. -/
def wordsOf (s : List Char) : List (List Char) := wordsAux s []

/-- Join lines with newline characters (`"\n".join(lines)`). -/
def joinNl : List (List Char) → List Char
  | [] => []
  | [l] => l
  | l :: ls => l ++ Char.ofNat 10 :: joinNl ls

/-! ### Image preparation (render_video, src/main.py lines 168-191)

Python float arithmetic is modelled as exact rational arithmetic. -/

/-- Python `int()` on a rational: truncation toward zero. -/
def pyInt (q : ℚ) : ℤ := if 0 ≤ q then ⌊q⌋ else ⌈q⌉

/-- Python `round()` (and PIL's rounding of crop-box coordinates): round half
to even. -/
def pyRound (q : ℚ) : ℤ :=
  if q - ⌊q⌋ < 1/2 then ⌊q⌋
  else if 1/2 < q - ⌊q⌋ then ⌊q⌋ + 1
  else if Even ⌊q⌋ then ⌊q⌋ else ⌊q⌋ + 1

/-- The resize computed by render_video: `img_ratio = w / h`,
`target_ratio = 1080 / 1920`; if `img_ratio > target_ratio` the new size is
`(int(1920 * img_ratio), 1920)`, otherwise `(1080, int(1080 / img_ratio))`. -/
def resizedDims (w h : Nat) : Nat × Nat :=
  let r : ℚ := (w : ℚ) / (h : ℚ)
  let tr : ℚ := (1080 : ℚ) / (1920 : ℚ)
  if tr < r then ((pyInt ((1920 : ℚ) * r)).toNat, 1920)
  else (1080, (pyInt ((1080 : ℚ) / r)).toNat)

/-- The size of `img.crop((left, top, left + 1080, top + 1920))` where
`left = (nw - 1080) / 2` and `top = (nh - 1920) / 2`: PIL rounds each box
coordinate (half to even) and clamps the box to nonnegative size; the crop
may extend beyond the image (PIL pads), so the output size is exactly the
rounded box size. -/
def cropSize (nw nh : Nat) : Nat × Nat :=
  let left : ℚ := ((nw : ℚ) - 1080) / 2
  let top : ℚ := ((nh : ℚ) - 1920) / 2
  let x0 := pyRound left
  let y0 := pyRound top
  let x1 := pyRound (left + 1080)
  let y1 := pyRound (top + 1920)
  ((max x0 x1 - x0).toNat, (max y0 y1 - y0).toNat)

/-- Dimensions of the background image written to temp_bg.png, for a source
image of `w × h` pixels. -/
def preparedSize (w h : Nat) : Nat × Nat :=
  cropSize (resizedDims w h).1 (resizedDims w h).2

/-! ### JSON extraction in get_ai_quote (src/main.py lines 105-116) -/

/-- The character 0x7b (left curly bracket). -/
def lbrace : Char := Char.ofNat 123

/-- The character 0x7d (right curly bracket). -/
def rbrace : Char := Char.ofNat 125

/-- The backquote character 0x60. -/
def btick : Char := Char.ofNat 96

/-- Python `s.find(c)`: index of the first occurrence. -/
def pyFind (c : Char) : List Char → Option Nat
  | [] => none
  | x :: t => if x == c then some 0 else (pyFind c t).map (· + 1)

/-- Python `s.rfind(c)`: index of the last occurrence. -/
def pyRfind (c : Char) : List Char → Option Nat
  | [] => none
  | x :: t =>
    match pyRfind c t with
    | some i => some (i + 1)
    | none => if x == c then some 0 else none

/-- Python `s.replace(pat, "")` (left-to-right, non-overlapping), fuelled by
the length of `s`. -/
def replaceDelF (pat : List Char) : Nat → List Char → List Char
  | 0, s => s
  | _, [] => []
  | fuel + 1, c :: t =>
    if !pat.isEmpty && (c :: t).take pat.length == pat then
      replaceDelF pat fuel ((c :: t).drop pat.length)
    else c :: replaceDelF pat fuel t

/-- Python `s.replace(pat, "")`. -/
def replaceDel (s pat : List Char) : List Char := replaceDelF pat s.length s

/-- The string of three backquotes. -/
def fence3 : List Char := [btick, btick, btick]

/-- The string of three backquotes followed by `json`. -/
def fenceJson : List Char := [btick, btick, btick, 'j', 's', 'o', 'n']

/-- The response cleaning and JSON-substring extraction of get_ai_quote:
strip, remove code-fence markers when the stripped text starts with three
backquotes, then slice from the first 0x7b to the last 0x7d (inclusive).
`none` models the `ValueError` raised when either bracket is absent. -/
def extractJsonText (resp : List Char) : Option (List Char) :=
  let raw0 := pyStrip resp
  let raw := if raw0.take 3 == fence3 then replaceDel (replaceDel raw0 fenceJson) fence3 else raw0
  match pyFind lbrace raw, pyRfind rbrace raw with
  | some s, some e => some ((raw.drop s).take (e + 1 - s))
  | _, _ => none

/-- A brace span: some 0x7b occurs before some 0x7d (the claim's
`"{"..."}"` span), phrased as a two-character sublist. -/
def hasBraceSpan (s : List Char) : Prop := List.Sublist [lbrace, rbrace] s

/-! ### A JSON value parser (Python `json.loads`)

Only used to evaluate the embedding on concrete model responses; numbers keep
their raw lexeme. -/

inductive Json where
  | null
  | bool (b : Bool)
  | num (raw : List Char)
  | str (s : List Char)
  | arr (xs : List Json)
  | obj (kvs : List (List Char × Json))

/-- JSON interelement whitespace. -/
def isJsonWs (c : Char) : Bool :=
  c == ' ' || c == Char.ofNat 9 || c == Char.ofNat 10 || c == Char.ofNat 13

/-- Drop JSON whitespace. -/
def skipWs (s : List Char) : List Char := s.dropWhile isJsonWs

/-- Single-character string escapes of JSON (the `BACKSLASH` table of
`json/decoder.py`): quote, backslash and slash stand for themselves, and
b f n r t for the control characters 8 12 10 13 9. -/
def escChar (c : Char) : Option Char :=
  if c == '"' || c == Char.ofNat 92 || c == '/' then some c
  else
    [('b', 8), ('f', 12), ('n', 10), ('r', 13), ('t', 9)].lookup c |>.map Char.ofNat

/-- Hexadecimal digit value. -/
def hexVal (c : Char) : Option Nat :=
  if c.isDigit then some (c.toNat - 48)
  else if 'a' ≤ c && c ≤ 'f' then some (c.toNat - 87)
  else if 'A' ≤ c && c ≤ 'F' then some (c.toNat - 55)
  else none

/-- Body of a JSON string after the opening quote, strict mode (unescaped
control characters are rejected). -/
def parseStrBody : Nat → List Char → Option (List Char × List Char)
  | 0, _ => none
  | _, [] => none
  | fuel + 1, c :: t =>
    if c == '"' then some ([], t)
    else if c == '\\' then
      match t with
      | [] => none
      | e :: t2 =>
        if e == 'u' then
          match t2 with
          | h1 :: h2 :: h3 :: h4 :: t3 =>
            match hexVal h1, hexVal h2, hexVal h3, hexVal h4 with
            | some v1, some v2, some v3, some v4 =>
              (parseStrBody fuel t3).map
                (fun br => (Char.ofNat (((v1 * 16 + v2) * 16 + v3) * 16 + v4) :: br.1, br.2))
            | _, _, _, _ => none
          | _ => none
        else
          match escChar e with
          | some ch => (parseStrBody fuel t2).map (fun br => (ch :: br.1, br.2))
          | none => none
    else if c.toNat < 32 then none
    else (parseStrBody fuel t).map (fun br => (c :: br.1, br.2))

/-- Maximal digit run. -/
def digitsSpan (s : List Char) : List Char × List Char :=
  (s.takeWhile Char.isDigit, s.dropWhile Char.isDigit)

/-- JSON number lexeme (returned raw). -/
def parseNumLex (s : List Char) : Option (List Char × List Char) :=
  let sign : List Char × List Char :=
    match s with
    | c :: t => if c == '-' then ([c], t) else ([], s)
    | [] => ([], [])
  let ip := digitsSpan sign.2
  if ip.1.isEmpty then none
  else if 2 ≤ ip.1.length && ip.1.head? == some '0' then none
  else
    let fr : Option (List Char × List Char) :=
      match ip.2 with
      | c :: t =>
        if c == '.' then
          let d := digitsSpan t
          if d.1.isEmpty then none else some (c :: d.1, d.2)
        else some ([], ip.2)
      | [] => some ([], [])
    match fr with
    | none => none
    | some frv =>
      let ex : Option (List Char × List Char) :=
        match frv.2 with
        | c :: t =>
          if c == 'e' || c == 'E' then
            let sg : List Char × List Char :=
              match t with
              | d :: t2 => if d == '+' || d == '-' then ([d], t2) else ([], t)
              | [] => ([], [])
            let d := digitsSpan sg.2
            if d.1.isEmpty then none else some (c :: sg.1 ++ d.1, d.2)
          else some ([], frv.2)
        | [] => some ([], [])
      match ex with
      | none => none
      | some exv => some (sign.1 ++ ip.1 ++ frv.1 ++ exv.1, exv.2)

mutual

/-- A JSON value (leading whitespace allowed), fuelled. -/
def parseValue : Nat → List Char → Option (Json × List Char)
  | 0, _ => none
  | fuel + 1, s0 =>
    match skipWs s0 with
    | [] => none
    | c :: t =>
      if c == lbrace then
        match skipWs t with
        | d :: t2 =>
          if d == rbrace then some (.obj [], t2)
          else (parseObjItems fuel (skipWs t)).map (fun r => (.obj r.1, r.2))
        | [] => none
      else if c == '[' then
        match skipWs t with
        | d :: t2 =>
          if d == ']' then some (.arr [], t2)
          else (parseArrItems fuel (skipWs t)).map (fun r => (.arr r.1, r.2))
        | [] => none
      else if c == '"' then (parseStrBody (t.length + 1) t).map (fun r => (.str r.1, r.2))
      else if c == 't' then
        if t.take 3 == ['r', 'u', 'e'] then some (.bool true, t.drop 3) else none
      else if c == 'f' then
        if t.take 4 == ['a', 'l', 's', 'e'] then some (.bool false, t.drop 4) else none
      else if c == 'n' then
        if t.take 3 == ['u', 'l', 'l'] then some (.null, t.drop 3) else none
      else (parseNumLex (c :: t)).map (fun r => (.num r.1, r.2))

/-- Nonempty comma-separated `"key": value` list followed by a closing 0x7d. -/
def parseObjItems : Nat → List Char → Option (List (List Char × Json) × List Char)
  | 0, _ => none
  | fuel + 1, s =>
    match skipWs s with
    | c :: t =>
      if c == '"' then
        match parseStrBody (t.length + 1) t with
        | some kr =>
          match skipWs kr.2 with
          | d :: t2 =>
            if d == ':' then
              match parseValue fuel t2 with
              | some vr =>
                match skipWs vr.2 with
                | e :: t3 =>
                  if e == ',' then
                    (parseObjItems fuel t3).map (fun r => ((kr.1, vr.1) :: r.1, r.2))
                  else if e == rbrace then some ([(kr.1, vr.1)], t3)
                  else none
                | [] => none
              | none => none
            else none
          | [] => none
        | none => none
      else none
    | [] => none

/-- Nonempty comma-separated value list followed by a closing bracket. -/
def parseArrItems : Nat → List Char → Option (List Json × List Char)
  | 0, _ => none
  | fuel + 1, s =>
    match parseValue fuel s with
    | some vr =>
      match skipWs vr.2 with
      | e :: t3 =>
        if e == ',' then (parseArrItems fuel t3).map (fun r => (vr.1 :: r.1, r.2))
        else if e == ']' then some ([vr.1], t3)
        else none
      | [] => none
    | none => none

end

/-- Python `json.loads`. -/
def jsonLoads (s : List Char) : Option Json :=
  match parseValue (s.length + 1) s with
  | some (v, rest) => if (skipWs rest).isEmpty then some v else none
  | none => none

/-! ### get_ai_quote (src/main.py lines 71-128)

The Gemini service is a parameter `respond` mapping a model name to the
response text of `generate_content` (or an exception). -/

/-- The fallback model list (src/main.py lines 84-88). -/
def models_to_try : List (List Char) :=
  ["gemini-2.5-flash".data, "gemini-2.0-flash".data, "gemini-1.5-flash".data]

/-- The body of the per-model `try` block: request, clean/extract, parse.
Any failure (service exception, missing bracket, JSON parse error) is the
caught exception of that model. -/
def attemptModel (respond : List Char → Except Unit (List Char)) (m : List Char) :
    Except Unit Json :=
  match respond m with
  | .error _ => .error ()
  | .ok txt =>
    match extractJsonText txt with
    | none => .error ()
    | some jt =>
      match jsonLoads jt with
      | some d => .ok d
      | none => .error ()

/-- Events of one pipeline run, in the order the side effects happen. -/
inductive Event where
  | geminiCall (model : List Char)
  | pollinationsRequest
  | localPick (name : List Char)
  | ttsCall
  | encoderRun
  | uploadCall
  | archiveMove (name : List Char)
deriving DecidableEq

/-- The fallback loop of get_ai_quote, also recording one `geminiCall` event
per attempted model.  The final `.error` is the closing `RuntimeError`. -/
def tryModelsT (respond : List Char → Except Unit (List Char)) :
    List (List Char) → Except Unit Json × List Event
  | [] => (.error (), [])
  | m :: rest =>
    match attemptModel respond m with
    | .ok d => (.ok d, [.geminiCall m])
    | .error _ =>
      let r := tryModelsT respond rest
      (r.1, .geminiCall m :: r.2)

/-- get_ai_quote with its event trace; the `.error` on a missing API key is
the initial `RuntimeError` (no model is attempted). -/
def get_ai_quoteT (apiKey : Bool) (respond : List Char → Except Unit (List Char)) :
    Except Unit Json × List Event :=
  if apiKey then tryModelsT respond models_to_try else (.error (), [])

/-- get_ai_quote: the returned payload (or raised error). -/
def get_ai_quote (apiKey : Bool) (respond : List Char → Except Unit (List Char)) :
    Except Unit Json :=
  (get_ai_quoteT apiKey respond).1

/-- Whether a payload is a JSON object carrying the three required fields of
the spec (`quote`, `title`, `description`). -/
def hasThreeFields : Json → Bool
  | .obj kvs =>
    (kvs.any (fun kv => kv.1 == "quote".data)) &&
      (kvs.any (fun kv => kv.1 == "title".data)) &&
      (kvs.any (fun kv => kv.1 == "description".data))
  | _ => false

/-! ### generate_krishna_image (src/main.py lines 41-65)

The function performs exactly one HTTP GET of the Pollinations endpoint;
`outcome` is the result of that single request (`.error` = a raised requests
exception, `.ok st` = a response with HTTP status `st`).  It returns whether
the image bytes were fetched and saved. -/

def generate_krishna_image (outcome : Except Unit Nat) : Bool :=
  match outcome with
  | .error _ => false
  | .ok status => status == 200

/-! ### render_video (src/main.py lines 156-292)

The filesystem is a list of paths; `encodeOk` is the outcome of the ffmpeg
subprocess (`False` = nonzero exit status, raising `CalledProcessError` under
`check=True`, which the `except` catches).  The overlay drawing has no
control-flow effect and is not modelled beyond the creation of
temp_overlay.png.  All paths run the `finally` cleanup. -/

/-- Path of the temporary background raster. -/
def tempBg : List Char := "temp_bg.png".data

/-- Path of the temporary overlay raster. -/
def tempOverlay : List Char := "temp_overlay.png".data

/-- OUTPUT_FILE. -/
def outputFilePath : List Char := "short.mp4".data

/-- VOICE_FILE. -/
def voiceFilePath : List Char := "voice.mp3".data

/-- GEN_IMAGE_FILE. -/
def genImageFile : List Char := "generated.png".data

/-- A file inside IMAGE_DIR. -/
def imagesDirPath (name : List Char) : List Char := "images/".data ++ name

/-- A file inside USED_DIR. -/
def usedDirPath (name : List Char) : List Char := "images_used/".data ++ name

/-- The `finally` block (lines 286-292): delete both temporary rasters when
they exist. -/
def cleanupTemps (fs : List (List Char)) : List (List Char) :=
  fs.filter (fun p => !(p == tempBg) && !(p == tempOverlay))

/-- render_video: returns the rendered path (`none` = a `return None` path),
the final filesystem, and the events. -/
def render_video (fs : List (List Char)) (image_path : List Char) (quote : List Char)
    (voice_path : List Char) (encodeOk : Bool) :
    Option (List Char) × List (List Char) × List Event :=
  if image_path ∉ fs then (none, cleanupTemps fs, [])
  else if voice_path ∉ fs then (none, cleanupTemps fs, [])
  else
    let fs1 := tempBg :: fs
    if (wrappedLines quote).isEmpty then (none, cleanupTemps fs1, [])
    else
      let fs2 := tempOverlay :: fs1
      if encodeOk then
        (some outputFilePath, cleanupTemps (outputFilePath :: fs2), [.encoderRun])
      else (none, cleanupTemps fs2, [.encoderRun])

/-! ### upload_to_youtube (src/main.py lines 298-347) -/

/-- upload_to_youtube: `envOk` is the presence of the three credential
environment variables; `apiOutcome` is the result of the credential/build/
insert/execute sequence (`.ok id` = the returned video identifier, `.error` =
any raised exception, caught by the `except` and reported as `False`). -/
def upload_to_youtube (envOk : Bool) (apiOutcome : Except Unit (List Char)) :
    Bool × List Event :=
  if !envOk then (false, [])
  else
    match apiOutcome with
    | .ok _ => (true, [.uploadCall])
    | .error _ => (false, [.uploadCall])

/-! ### The orchestrator (src/main.py lines 353-406) -/

/-- Environment of one run: every external outcome the script can observe. -/
structure Env where
  geminiApiKey : Bool
  geminiResp : List Char → Except Unit (List Char)
  pollinationsResp : Nat → Except Unit Nat
  otherFiles : List (List Char)
  localImages : List (List Char)
  pickIndex : Nat
  ttsOk : Bool
  encodeOk : Bool
  ytEnvOk : Bool
  ytApi : Except Unit (List Char)

/-- Outcome of the whole process. -/
inductive RunOutcome where
  | crashed
  | exited (n : Nat)
  | completed
deriving DecidableEq

/-- Trace, outcome and final filesystem of one run. -/
structure RunResult where
  trace : List Event
  outcome : RunOutcome
  finalFs : List (List Char)
deriving DecidableEq

/-- Python `s.lower().endswith(suffix)` for the image-extension filter. -/
def isImageName (f : List Char) : Bool :=
  let l := f.map Char.toLower
  l.drop (l.length - 4) == ".jpg".data || l.drop (l.length - 4) == ".png".data

/-- `d.get(key, default)` followed by `.strip()`: `.error` models the
`AttributeError` raised by `.strip()` on a non-string value (and on a
non-dict payload).  `json.loads` keeps the last duplicate key, hence the
reversed search. -/
def jsonGetStrStripped (d : Json) (key dflt : List Char) : Except Unit (List Char) :=
  match d with
  | .obj kvs =>
    match kvs.reverse.find? (fun kv => kv.1 == key) with
    | some kv =>
      match kv.2 with
      | .str s => .ok (pyStrip s)
      | _ => .error ()
    | none => .ok (pyStrip dflt)
  | _ => .error ()

/-- The filesystem before the run: unrelated files plus the local image
pool. -/
def initialFs (env : Env) : List (List Char) :=
  env.otherFiles ++ env.localImages.map imagesDirPath

/-- Steps 3-5 of the orchestrator (voice, render, upload, archive move),
after an image path was selected; the events recorded from this point on,
the outcome and the final filesystem.  `target` is `target_image`:
`some name` when the image came from the local pool. -/
def afterImageCore (env : Env) (quote_text : List Char) (fs : List (List Char))
    (image_path : List Char) (target : Option (List Char)) :
    List Event × RunOutcome × List (List Char) :=
  if !env.ttsOk then ([Event.ttsCall], .exited 1, fs)
  else
    let fs2 := voiceFilePath :: fs
    let r := render_video fs2 image_path quote_text voiceFilePath env.encodeOk
    match r.1 with
    | none => (Event.ttsCall :: r.2.2, .completed, r.2.1)
    | some _ =>
      let u := upload_to_youtube env.ytEnvOk env.ytApi
      match target with
      | some name =>
        if u.1 then
          (Event.ttsCall :: r.2.2 ++ u.2 ++ [Event.archiveMove name], .completed,
            usedDirPath name :: r.2.1.filter (fun p => !(p == imagesDirPath name)))
        else (Event.ttsCall :: r.2.2 ++ u.2, .completed, r.2.1)
      | none => (Event.ttsCall :: r.2.2 ++ u.2, .completed, r.2.1)

/-- Steps 3-5 of the orchestrator prefixed with the events recorded so far. -/
def afterImage (env : Env) (quote_text : List Char) (ev : List Event)
    (fs : List (List Char)) (image_path : List Char) (target : Option (List Char)) :
    RunResult :=
  ⟨ev ++ (afterImageCore env quote_text fs image_path target).1,
    (afterImageCore env quote_text fs image_path target).2.1,
    (afterImageCore env quote_text fs image_path target).2.2⟩

/-- The `__main__` block: caption, image acquisition (one Pollinations
request, then the local-pool fallback), voice, render, upload, archive move.
`random.choice` is modelled by the environment-chosen index `pickIndex`
(reduced modulo the pool size). -/
def pipelineRun (env : Env) : RunResult :=
  let g := get_ai_quoteT env.geminiApiKey env.geminiResp
  match g.1 with
  | .error _ => ⟨g.2, .crashed, initialFs env⟩
  | .ok data =>
    match jsonGetStrStripped data "quote".data [],
        jsonGetStrStripped data "title".data "Krishna Shorts 🦚".data,
        jsonGetStrStripped data "description".data "Jai Shree Krishna #Krishna".data with
    | .ok quote_text, .ok _, .ok _ =>
      if quote_text.isEmpty then ⟨g.2, .exited 1, initialFs env⟩
      else
        let pollOk := generate_krishna_image (env.pollinationsResp 0)
        let ev1 := g.2 ++ [Event.pollinationsRequest]
        let fs1 := if pollOk then genImageFile :: initialFs env else initialFs env
        if pollOk then afterImage env quote_text ev1 fs1 genImageFile none
        else
          let images := env.localImages.filter isImageName
          if images.isEmpty then ⟨ev1, .exited 1, fs1⟩
          else
            let name := images.getD (env.pickIndex % images.length) []
            afterImage env quote_text (ev1 ++ [Event.localPick name]) fs1
              (imagesDirPath name) (some name)
    | _, _, _ => ⟨g.2, .crashed, initialFs env⟩

/-! ### The encoder invocation (src/main.py lines 252-278) -/

/-- The argument list handed to `subprocess.run` (lines 253-276). -/
def ffmpeg_command (ffmpegExe voicePath outputFile : String) : List String :=
  [ffmpegExe, "-y", "-loop", "1", "-i", "temp_bg.png", "-i", "temp_overlay.png",
   "-i", voicePath, "-filter_complex", "[0:v][1:v]overlay=0:0[v]", "-map", "[v]",
   "-map", "2:a", "-c:v", "libx264", "-pix_fmt", "yuv420p", "-shortest", outputFile]

/-- Digits-only parse of a duration argument. -/
def parseNatArg (s : List Char) : Option Nat :=
  if !s.isEmpty && s.all Char.isDigit then
    some (s.foldl (fun a c => a * 10 + (c.toNat - 48)) 0)
  else none

/-- The value following a `-t` flag, when present and numeric. -/
def durationCapOf (args : List String) : Option ℚ :=
  match args.findIdx? (fun a => a == "-t") with
  | some i =>
    match args.get? (i + 1) with
    | some v => (parseNatArg v.data).map (fun n => (n : ℚ))
    | none => none
  | none => none

/-- Modelled from the spec: the external video encoder itself is not part of
the repository.  Per the spec (sections 4.4 and 6), the duration behaviour of
the encoder command line is: a `-t` value caps the output duration; with the
looped still-image video inputs, `-shortest` ends the output at the only
finite input stream, the audio track; with neither flag the output is
unbounded (`none`). -/
def encodedDuration (args : List String) (audioLen : ℚ) : Option ℚ :=
  match durationCapOf args, args.contains "-shortest" with
  | some t, true => some (min audioLen t)
  | some t, false => some t
  | none, true => some audioLen
  | none, false => none

/-- Stage index in the order asserted by the spec (Selector, Caption
Generator, Voice Synthesizer, Compositor, Publisher, archive move). -/
def stageIdxClaim : Event → Nat
  | .pollinationsRequest => 0
  | .localPick _ => 0
  | .geminiCall _ => 1
  | .ttsCall => 2
  | .encoderRun => 3
  | .uploadCall => 4
  | .archiveMove _ => 5

/-- Stage index in the order the code executes (Caption Generator first). -/
def stageIdxCode : Event → Nat
  | .geminiCall _ => 0
  | .pollinationsRequest => 1
  | .localPick _ => 1
  | .ttsCall => 2
  | .encoderRun => 3
  | .uploadCall => 4
  | .archiveMove _ => 5

/-! ### Concrete instances used by individual claims -/

/-- A Gemini response function whose first model returns an empty JSON object
and whose second returns a full three-field payload. -/
def c7respond : List Char → Except Unit (List Char) :=
  fun m =>
    if m = "gemini-2.5-flash".data then .ok "\x7b\x7d".data
    else if m = "gemini-2.0-flash".data then
      .ok "\x7b\"quote\":\"jai\",\"title\":\"t\",\"description\":\"d\"\x7d".data
    else .error ()

/-- The payload of the second model of `c7respond`. -/
def c7payload : Json :=
  Json.obj [("quote".data, .str "jai".data), ("title".data, .str "t".data),
    ("description".data, .str "d".data)]

/-- An environment in which every external service succeeds. -/
def envAllOk : Env where
  geminiApiKey := true
  geminiResp := fun _ =>
    .ok "\x7b\"quote\":\"jai shri krishna\",\"title\":\"t\",\"description\":\"d\"\x7d".data
  pollinationsResp := fun _ => .ok 200
  otherFiles := []
  localImages := ["img1.jpg".data]
  pickIndex := 0
  ttsOk := true
  encodeOk := true
  ytEnvOk := true
  ytApi := .ok "vid".data

/-- An environment whose single Pollinations request fails although a second
request would have succeeded; one local image is available. -/
def envRetry : Env :=
  { envAllOk with pollinationsResp := fun n => if n = 0 then .error () else .ok 200 }

/-- `envRetry` with an upload that raises an authentication exception. -/
def envUploadFail : Env :=
  { envRetry with ytApi := .error () }

/-! ### Chunk-structure predicates (used to state the C2 word-preservation
property of the wrapper) -/

/-- A chunk as the splitter produces it: nonempty, and uniformly whitespace
or uniformly non-whitespace. -/
def goodChunk (c : List Char) : Prop :=
  c ≠ [] ∧ ((c.all isPySpace) = true ∨ (c.all fun x => !isPySpace x) = true)

/-- A well-formed chunk list: uniform nonempty chunks whose kinds
(whitespace run / word) alternate. -/
def goodChunks (cs : List (List Char)) : Prop :=
  (∀ c ∈ cs, goodChunk c) ∧
    List.Chain' (fun a b => a.all isPySpace ≠ b.all isPySpace) cs

/-- Every non-whitespace chunk fits within the width. -/
def wordBound (w : Nat) (cs : List (List Char)) : Prop :=
  ∀ c ∈ cs, (c.all isPySpace) = true ∨ c.length ≤ w

/-! ### Theorems -/

/-- Claim C9: on every exit path of render_video — successful encode, raised
exception, or early return — the temporary rasters temp_bg.png and
temp_overlay.png do not remain on disk afterwards. -/
theorem c9_render_cleans_temps (fs : List (List Char)) (ip q vp : List Char) (ok : Bool) :
    tempBg ∉ (render_video fs ip q vp ok).2.1 ∧
      tempOverlay ∉ (render_video fs ip q vp ok).2.1 := by
  have h : ∀ l : List (List Char), tempBg ∉ cleanupTemps l ∧ tempOverlay ∉ cleanupTemps l := by
    intro l
    constructor <;> · intro hm; simp [cleanupTemps, List.mem_filter] at hm
  unfold render_video
  split
  · exact h _
  · split
    · exact h _
    · split
      · exact h _
      · split
        · exact h _
        · exact h _

/-- Claim C10: render_video returns None, without raising and without
invoking the external encoder, whenever the image path does not exist, the
voice path does not exist, or the stripped quote word-wraps to zero lines
(in the model no exception can escape render_video at all: every branch
returns). -/
theorem c10_render_guard_paths (fs : List (List Char)) (ip q vp : List Char) (ok : Bool)
    (h : ip ∉ fs ∨ vp ∉ fs ∨ wrappedLines q = []) :
    (render_video fs ip q vp ok).1 = none ∧
      Event.encoderRun ∉ (render_video fs ip q vp ok).2.2 := by
  unfold render_video
  rcases h with h | h | h
  · simp [h]
  · by_cases h1 : ip ∈ fs
    · simp [h1, h]
    · simp [h1]
  · by_cases h1 : ip ∈ fs
    · by_cases h2 : vp ∈ fs
      · simp [h1, h2, h]
      · simp [h1, h2]
    · simp [h1]

/-- Claim C10 witness at a concrete input: an absent image file. -/
theorem c10_witness :
    (render_video [] tempBg "jai".data voiceFilePath true).1 = none ∧
      Event.encoderRun ∉ (render_video [] tempBg "jai".data voiceFilePath true).2.2 :=
  c10_render_guard_paths [] tempBg "jai".data voiceFilePath true
    (Or.inl (by simp))

/-- Claim C4 counterexample: for a 120-unit audio track the encoder command
of render_video yields a 120-unit video, not a 58-unit one — the command
carries no fixed duration ceiling. -/
theorem c4_counterexample :
    encodedDuration (ffmpeg_command "ffmpeg" "voice.mp3" "short.mp4") 120 = some 120 ∧
      encodedDuration (ffmpeg_command "ffmpeg" "voice.mp3" "short.mp4") 120 ≠ some 58 := by
  refine ⟨rfl, ?_⟩
  rw [show encodedDuration (ffmpeg_command "ffmpeg" "voice.mp3" "short.mp4") 120
      = some 120 from rfl]
  decide

/-- Claim C4 amended: the encoder invocation bounds the output duration by
the audio length alone (`-shortest` with no `-t` ceiling), so the rendered
duration equals the audio track length for every audio length. -/
theorem c4_amended (len : ℚ) :
    encodedDuration (ffmpeg_command "ffmpeg" "voice.mp3" "short.mp4") len = some len ∧
      "-t" ∉ ffmpeg_command "ffmpeg" "voice.mp3" "short.mp4" ∧
      "-shortest" ∈ ffmpeg_command "ffmpeg" "voice.mp3" "short.mp4" := by
  refine ⟨?_, by decide, by decide⟩
  have h1 : durationCapOf (ffmpeg_command "ffmpeg" "voice.mp3" "short.mp4") = none := rfl
  have h2 : (ffmpeg_command "ffmpeg" "voice.mp3" "short.mp4").contains "-shortest" = true := rfl
  unfold encodedDuration
  rw [h1, h2]

/-- Claim C7 counterexample: the first model's response is the valid JSON
object with no fields at all; get_ai_quote returns it unchanged although it
lacks the three required fields and although the second model's response
carries them — there is no shape validation. -/
theorem c7_counterexample :
    get_ai_quote true c7respond = .ok (Json.obj []) ∧
      hasThreeFields (Json.obj []) = false ∧
      attemptModel c7respond "gemini-2.0-flash".data = .ok c7payload ∧
      hasThreeFields c7payload = true :=
  ⟨rfl, rfl, rfl, rfl⟩

/-- Claim C7 amended: get_ai_quote tries the fallback models in priority
order and returns the payload of the first model whose response yields any
parseable JSON value (the three-field shape is not validated); it raises if
and only if every model attempt throws. -/
theorem c7_amended (respond : List Char → Except Unit (List Char)) :
    (get_ai_quote true respond = .error () ↔
      (attemptModel respond "gemini-2.5-flash".data = .error () ∧
        attemptModel respond "gemini-2.0-flash".data = .error () ∧
        attemptModel respond "gemini-1.5-flash".data = .error ())) ∧
    (∀ d, get_ai_quote true respond = .ok d ↔
      (attemptModel respond "gemini-2.5-flash".data = .ok d ∨
        (attemptModel respond "gemini-2.5-flash".data = .error () ∧
          attemptModel respond "gemini-2.0-flash".data = .ok d) ∨
        (attemptModel respond "gemini-2.5-flash".data = .error () ∧
          attemptModel respond "gemini-2.0-flash".data = .error () ∧
          attemptModel respond "gemini-1.5-flash".data = .ok d))) := by
  cases h1 : attemptModel respond "gemini-2.5-flash".data with
  | ok d1 => simp [get_ai_quote, get_ai_quoteT, models_to_try, tryModelsT, h1]
  | error e1 =>
    cases e1
    cases h2 : attemptModel respond "gemini-2.0-flash".data with
    | ok d2 => simp [get_ai_quote, get_ai_quoteT, models_to_try, tryModelsT, h1, h2]
    | error e2 =>
      cases e2
      cases h3 : attemptModel respond "gemini-1.5-flash".data with
      | ok d3 => simp [get_ai_quote, get_ai_quoteT, models_to_try, tryModelsT, h1, h2, h3]
      | error e3 =>
        cases e3
        simp [get_ai_quote, get_ai_quoteT, models_to_try, tryModelsT, h1, h2, h3]

/-- Round-half-to-even commutes with adding an even integer. -/
theorem pyRound_add_even (q : ℚ) (n : ℤ) (hn : Even n) :
    pyRound (q + (n : ℚ)) = pyRound q + n := by
  unfold pyRound
  rw [Int.floor_add_int]
  have hfrac : q + (n : ℚ) - ((⌊q⌋ + n : ℤ) : ℚ) = q - (⌊q⌋ : ℚ) := by push_cast; ring
  rw [hfrac]
  have he : Even (⌊q⌋ + n) ↔ Even ⌊q⌋ := by simp [Int.even_add, hn]
  split_ifs with h1 h2 h3 h4 <;>
    first
      | omega
      | (exact absurd (he.mp ‹_›) ‹_›)
      | (exact absurd (he.mpr ‹_›) ‹_›)

/-- The center crop always produces the exact 1080 x 1920 box, whatever the
resized dimensions are. -/
theorem cropSize_eq (nw nh : Nat) : cropSize nw nh = (1080, 1920) := by
  unfold cropSize
  dsimp only
  have h1 := pyRound_add_even (((nw : ℚ) - 1080) / 2) 1080 (by decide)
  have h2 := pyRound_add_even (((nh : ℚ) - 1920) / 2) 1920 (by decide)
  rw [show (((1080 : ℤ) : ℚ)) = (1080 : ℚ) by norm_num] at h1
  rw [show (((1920 : ℤ) : ℚ)) = (1920 : ℚ) by norm_num] at h2
  rw [h1, h2]
  refine Prod.ext ?_ ?_ <;> simp <;> omega

/-- Claim C1 counterexample: a 100 x 99 image resizes to 1939 x 1920, whose
aspect ratio differs from 100/99 — integer truncation distorts the ratio. -/
theorem c1_counterexample :
    resizedDims 100 99 = (1939, 1920) ∧ (1939 : ℤ) * 99 ≠ 1920 * 100 := by
  refine ⟨?_, by decide⟩
  unfold resizedDims
  dsimp only
  rw [if_pos (show (1080 : ℚ) / 1920 < ((100 : ℕ) : ℚ) / ((99 : ℕ) : ℚ) by norm_num)]
  unfold pyInt
  rw [if_pos (show (0 : ℚ) ≤ 1920 * (((100 : ℕ) : ℚ) / ((99 : ℕ) : ℚ)) by positivity)]
  rw [show ⌊(1920 : ℚ) * (((100 : ℕ) : ℚ) / ((99 : ℕ) : ℚ))⌋ = 1939 by
    rw [Int.floor_eq_iff]
    constructor <;> norm_num]
  rfl

/-- Claim C1 amended: for every source image of positive dimensions the
cover-fit + center-crop preparation produces exactly 1080 x 1920, and the
resize preserves the source aspect ratio up to the integer truncation of the
computed dimension: the cross-ratio error `|nw * h - nh * w|` is smaller
than `max w h` (a sub-pixel distortion), rather than exactly zero. -/
theorem c1_amended (w h : Nat) (hw : 1 ≤ w) (hh : 1 ≤ h) :
    preparedSize w h = (1080, 1920) ∧
      (((resizedDims w h).1 : ℤ) * h - ((resizedDims w h).2 : ℤ) * w).natAbs < max w h := by
  have hq : (0 : ℚ) < (h : ℚ) := by exact_mod_cast hh
  have hwq : (0 : ℚ) < (w : ℚ) := by exact_mod_cast hw
  constructor
  · unfold preparedSize
    exact cropSize_eq _ _
  · unfold resizedDims
    dsimp only
    split
    · set x : ℚ := (1920 : ℚ) * ((w : ℚ) / (h : ℚ)) with hx
      have hx0 : (0 : ℚ) ≤ x := by positivity
      have hfl0 : (0 : ℤ) ≤ ⌊x⌋ := Int.floor_nonneg.mpr hx0
      have hpy : pyInt x = ⌊x⌋ := by unfold pyInt; rw [if_pos hx0]
      rw [hpy]
      dsimp only
      have hcast : (((⌊x⌋).toNat : ℤ)) = ⌊x⌋ := Int.toNat_of_nonneg hfl0
      rw [hcast]
      have hle : (⌊x⌋ : ℚ) * h ≤ 1920 * w := by
        calc (⌊x⌋ : ℚ) * h ≤ x * h :=
              mul_le_mul_of_nonneg_right (Int.floor_le x) (le_of_lt hq)
          _ = 1920 * w := by rw [hx]; field_simp
      have hlt : (1920 : ℚ) * w < (⌊x⌋ + 1) * h := by
        calc (1920 : ℚ) * w = x * h := by rw [hx]; field_simp
          _ < (⌊x⌋ + 1) * h := mul_lt_mul_of_pos_right (Int.lt_floor_add_one x) hq
      have hle' : ⌊x⌋ * (h : ℤ) ≤ 1920 * w := by exact_mod_cast hle
      have hlt' : (1920 : ℤ) * w < (⌊x⌋ + 1) * h := by exact_mod_cast hlt
      rw [show ((⌊x⌋ + 1) * (h : ℤ)) = ⌊x⌋ * h + h by ring] at hlt'
      have hmax : (h : ℤ) ≤ (max w h : ℕ) := by exact_mod_cast Nat.le_max_right w h
      omega
    · set x : ℚ := (1080 : ℚ) / ((w : ℚ) / (h : ℚ)) with hx
      have hx0 : (0 : ℚ) ≤ x := by positivity
      have hfl0 : (0 : ℤ) ≤ ⌊x⌋ := Int.floor_nonneg.mpr hx0
      have hpy : pyInt x = ⌊x⌋ := by unfold pyInt; rw [if_pos hx0]
      rw [hpy]
      dsimp only
      have hcast : (((⌊x⌋).toNat : ℤ)) = ⌊x⌋ := Int.toNat_of_nonneg hfl0
      rw [hcast]
      have hle : (⌊x⌋ : ℚ) * w ≤ 1080 * h := by
        calc (⌊x⌋ : ℚ) * w ≤ x * w :=
              mul_le_mul_of_nonneg_right (Int.floor_le x) (le_of_lt hwq)
          _ = 1080 * h := by rw [hx]; field_simp
      have hlt : (1080 : ℚ) * h < (⌊x⌋ + 1) * w := by
        calc (1080 : ℚ) * h = x * w := by rw [hx]; field_simp
          _ < (⌊x⌋ + 1) * w := mul_lt_mul_of_pos_right (Int.lt_floor_add_one x) hwq
      have hle' : ⌊x⌋ * (w : ℤ) ≤ 1080 * h := by exact_mod_cast hle
      have hlt' : (1080 : ℤ) * h < (⌊x⌋ + 1) * w := by exact_mod_cast hlt
      rw [show ((⌊x⌋ + 1) * (w : ℤ)) = ⌊x⌋ * w + w by ring] at hlt'
      have hmax : (w : ℤ) ≤ (max w h : ℕ) := by exact_mod_cast Nat.le_max_left w h
      omega

/-- Claim C1 witness: the amended statement evaluated at a 100 x 99 image. -/
theorem c1_witness :
    preparedSize 100 99 = (1080, 1920) ∧
      (((resizedDims 100 99).1 : ℤ) * 99 - ((resizedDims 100 99).2 : ℤ) * 100).natAbs
        < max 100 99 :=
  c1_amended 100 99 (by decide) (by decide)

/-- Every event recorded by get_ai_quote is a Gemini call. -/
theorem get_ai_quoteT_events (k : Bool) (r : List Char → Except Unit (List Char)) :
    ∀ e ∈ (get_ai_quoteT k r).2, ∃ m, e = Event.geminiCall m := by
  unfold get_ai_quoteT
  split
  · have : ∀ ms, ∀ e ∈ (tryModelsT r ms).2, ∃ m, e = Event.geminiCall m := by
      intro ms
      induction ms with
      | nil => intro e he; simp [tryModelsT] at he
      | cons m rest ih =>
        intro e he
        unfold tryModelsT at he
        rcases hM : attemptModel r m with _ | d <;> rw [hM] at he <;> simp at he
        · rcases he with he | he
          · exact ⟨m, he⟩
          · exact ih e he
        · exact ⟨m, he⟩
    exact this models_to_try
  · intro e he; simp at he

/-- Every event recorded by render_video is an encoder run. -/
theorem render_video_events (fs : List (List Char)) (ip q vp : List Char) (ok : Bool) :
    ∀ e ∈ (render_video fs ip q vp ok).2.2, e = Event.encoderRun := by
  unfold render_video
  split
  · intro e he; simp at he
  · split
    · intro e he; simp at he
    · split
      · intro e he; simp at he
      · split <;> · intro e he; simp at he; exact he

/-- Every event recorded by upload_to_youtube is an upload call. -/
theorem upload_events (envOk : Bool) (api : Except Unit (List Char)) :
    ∀ e ∈ (upload_to_youtube envOk api).2, e = Event.uploadCall := by
  unfold upload_to_youtube
  split
  · intro e he; simp at he
  · split <;> · intro e he; simp at he; exact he

/-- render_video never removes a file other than the two temporary
rasters. -/
theorem render_video_keeps (fs : List (List Char)) (ip q vp p : List Char) (ok : Bool)
    (hp : p ∈ fs) (h1 : p ≠ tempBg) (h2 : p ≠ tempOverlay) :
    p ∈ (render_video fs ip q vp ok).2.1 := by
  have hkeep : ∀ l : List (List Char), p ∈ l → p ∈ cleanupTemps l := by
    intro l hl
    simp [cleanupTemps, List.mem_filter, hl, h1, h2]
  unfold render_video
  split
  · exact hkeep _ hp
  · split
    · exact hkeep _ hp
    · split
      · exact hkeep _ (by simp [hp])
      · split
        · exact hkeep _ (by simp [hp])
        · exact hkeep _ (by simp [hp])

/-- upload_to_youtube reports failure when the credentials are missing or the
upload raises. -/
theorem upload_fails (envOk : Bool) (api : Except Unit (List Char))
    (h : envOk = false ∨ api = .error ()) :
    (upload_to_youtube envOk api).1 = false := by
  unfold upload_to_youtube
  rcases h with h | h
  · simp [h]
  · subst h
    split
    · rfl
    · split
      · simp_all
      · rfl


/-- Lists with all elements equal are sorted. -/
theorem sorted_le_of_all_eq {l : List Nat} {c : Nat} (h : ∀ x ∈ l, x = c) :
    l.Sorted (· ≤ ·) := by
  induction l with
  | nil => exact List.sorted_nil
  | cons a t ih =>
    rw [List.sorted_cons]
    refine ⟨?_, ih (fun x hx => h x (List.mem_cons_of_mem a hx))⟩
    intro b hb
    rw [h a (List.mem_cons_self a t), h b (List.mem_cons_of_mem a hb)]

/-- Appending sorted lists with a bound between them stays sorted. -/
theorem sorted_le_append {l₁ l₂ : List Nat} (h1 : l₁.Sorted (· ≤ ·))
    (h2 : l₂.Sorted (· ≤ ·)) (h : ∀ a ∈ l₁, ∀ b ∈ l₂, a ≤ b) :
    (l₁ ++ l₂).Sorted (· ≤ ·) :=
  List.pairwise_append.mpr ⟨h1, h2, h⟩

/-- With an encoder-event run list, an upload-event list and archive events,
the tail of the post-selection trace is sorted in code-stage order. -/
theorem sorted_code_tail (revs us extra : List Event)
    (hrev : ∀ x ∈ revs, x = Event.encoderRun)
    (hus : ∀ x ∈ us, x = Event.uploadCall)
    (hex : ∀ x ∈ extra, ∃ n, x = Event.archiveMove n) :
    ((Event.ttsCall :: (revs ++ us ++ extra)).map stageIdxCode).Sorted (· ≤ ·) := by
  have hr3 : ∀ x ∈ revs.map stageIdxCode, x = 3 := by
    intro x hx
    obtain ⟨y, hy, rfl⟩ := List.mem_map.mp hx
    rw [hrev y hy]
    rfl
  have hu4 : ∀ x ∈ us.map stageIdxCode, x = 4 := by
    intro x hx
    obtain ⟨y, hy, rfl⟩ := List.mem_map.mp hx
    rw [hus y hy]
    rfl
  have he5 : ∀ x ∈ extra.map stageIdxCode, x = 5 := by
    intro x hx
    obtain ⟨y, hy, rfl⟩ := List.mem_map.mp hx
    obtain ⟨n, rfl⟩ := hex y hy
    rfl
  rw [List.map_cons, List.sorted_cons, List.map_append, List.map_append]
  constructor
  · intro b hbm
    rcases List.mem_append.mp hbm with hb | hb
    · rcases List.mem_append.mp hb with hb | hb
      · rw [hr3 b hb]; decide
      · rw [hu4 b hb]; decide
    · rw [he5 b hb]; decide
  · refine sorted_le_append (sorted_le_append (sorted_le_of_all_eq hr3)
      (sorted_le_of_all_eq hu4) ?_) (sorted_le_of_all_eq he5) ?_
    · intro a ha b hb
      rw [hr3 a ha, hu4 b hb]
      decide
    · intro a ha b hb
      rw [he5 b hb]
      rcases List.mem_append.mp ha with ha | ha
      · rw [hr3 a ha]; decide
      · rw [hu4 a ha]; decide

/-- The events recorded after image selection: a voice call, then possibly an
encoder run, an upload call and an archive move, in that order; the list is
sorted in code-stage order. -/
theorem afterImageCore_shape (env : Env) (q : List Char) (fs : List (List Char))
    (ip : List Char) (tgt : Option (List Char)) :
    (∀ e ∈ (afterImageCore env q fs ip tgt).1,
      e = .ttsCall ∨ e = .encoderRun ∨ e = .uploadCall ∨ ∃ n, e = .archiveMove n) ∧
    ((afterImageCore env q fs ip tgt).1.map stageIdxCode).Sorted (· ≤ ·) := by
  have hrev := render_video_events (voiceFilePath :: fs) ip q voiceFilePath env.encodeOk
  have hup := upload_events env.ytEnvOk env.ytApi
  have hgen : ∀ revs us extra : List Event,
      (∀ x ∈ revs, x = Event.encoderRun) → (∀ x ∈ us, x = Event.uploadCall) →
      (∀ x ∈ extra, ∃ n, x = Event.archiveMove n) →
      (∀ e ∈ Event.ttsCall :: (revs ++ us ++ extra),
        e = .ttsCall ∨ e = .encoderRun ∨ e = .uploadCall ∨ ∃ n, e = .archiveMove n) := by
    intro revs us extra h1 h2 h3 e he
    rcases List.mem_cons.mp he with rfl | he
    · exact Or.inl rfl
    · rcases List.mem_append.mp he with he | he
      · rcases List.mem_append.mp he with he | he
        · exact Or.inr (Or.inl (h1 e he))
        · exact Or.inr (Or.inr (Or.inl (h2 e he)))
      · exact Or.inr (Or.inr (Or.inr (h3 e he)))
  by_cases htts : env.ttsOk
  · rcases hres : (render_video (voiceFilePath :: fs) ip q voiceFilePath env.encodeOk).1
      with _ | v
    · constructor
      · have := hgen (render_video (voiceFilePath :: fs) ip q voiceFilePath env.encodeOk).2.2
          [] [] hrev (by simp) (by simp)
        simp only [List.append_nil] at this
        simpa [afterImageCore, htts, hres] using this
      · have := sorted_code_tail
          (render_video (voiceFilePath :: fs) ip q voiceFilePath env.encodeOk).2.2
          [] [] hrev (by simp) (by simp)
        simp only [List.append_nil] at this
        simpa [afterImageCore, htts, hres] using this
    · rcases tgt with _ | name
      · constructor
        · have := hgen (render_video (voiceFilePath :: fs) ip q voiceFilePath env.encodeOk).2.2
            (upload_to_youtube env.ytEnvOk env.ytApi).2 [] hrev hup (by simp)
          simp only [List.append_nil] at this
          simpa [afterImageCore, htts, hres] using this
        · have := sorted_code_tail
            (render_video (voiceFilePath :: fs) ip q voiceFilePath env.encodeOk).2.2
            (upload_to_youtube env.ytEnvOk env.ytApi).2 [] hrev hup (by simp)
          simp only [List.append_nil] at this
          simpa [afterImageCore, htts, hres] using this
      · by_cases hu : (upload_to_youtube env.ytEnvOk env.ytApi).1
        · constructor
          · have := hgen (render_video (voiceFilePath :: fs) ip q voiceFilePath env.encodeOk).2.2
              (upload_to_youtube env.ytEnvOk env.ytApi).2 [Event.archiveMove name] hrev hup
              (by simp)
            simpa [afterImageCore, htts, hres, hu] using this
          · have := sorted_code_tail
              (render_video (voiceFilePath :: fs) ip q voiceFilePath env.encodeOk).2.2
              (upload_to_youtube env.ytEnvOk env.ytApi).2 [Event.archiveMove name] hrev hup
              (by simp)
            simpa [afterImageCore, htts, hres, hu] using this
        · constructor
          · have := hgen (render_video (voiceFilePath :: fs) ip q voiceFilePath env.encodeOk).2.2
              (upload_to_youtube env.ytEnvOk env.ytApi).2 [] hrev hup (by simp)
            simp only [List.append_nil] at this
            simpa [afterImageCore, htts, hres, hu] using this
          · have := sorted_code_tail
              (render_video (voiceFilePath :: fs) ip q voiceFilePath env.encodeOk).2.2
              (upload_to_youtube env.ytEnvOk env.ytApi).2 [] hrev hup (by simp)
            simp only [List.append_nil] at this
            simpa [afterImageCore, htts, hres, hu] using this
  · constructor
    · have := hgen [] [] [] (by simp) (by simp) (by simp)
      simp only [List.append_nil] at this
      simpa [afterImageCore, htts] using this
    · have := sorted_code_tail [] [] [] (by simp) (by simp) (by simp)
      simp only [List.append_nil] at this
      simpa [afterImageCore, htts] using this

/-- A failed encoder subprocess makes render_video return no video path. -/
theorem render_video_none_of_encode_fail (fs : List (List Char)) (ip q vp : List Char) :
    (render_video fs ip q vp false).1 = none := by
  unfold render_video
  split
  · rfl
  · split
    · rfl
    · split
      · rfl
      · simp

/-- With a failed voice synthesis the run exits after the voice call. -/
theorem afterImageCore_tts_fail (env : Env) (q : List Char) (fs : List (List Char))
    (ip : List Char) (tgt : Option (List Char)) (h : env.ttsOk = false) :
    (afterImageCore env q fs ip tgt).1 = [Event.ttsCall] ∧
      (afterImageCore env q fs ip tgt).2.1 = .exited 1 ∧
      (afterImageCore env q fs ip tgt).2.2 = fs := by
  unfold afterImageCore
  simp [h]

/-- With a voice track but no rendered video, the recorded tail is the voice
call followed by the render events. -/
theorem afterImageCore_eq_of_none (env : Env) (q : List Char) (fs : List (List Char))
    (ip : List Char) (tgt : Option (List Char)) (htts : env.ttsOk = true)
    (hres : (render_video (voiceFilePath :: fs) ip q voiceFilePath env.encodeOk).1 = none) :
    (afterImageCore env q fs ip tgt).1 =
      Event.ttsCall :: (render_video (voiceFilePath :: fs) ip q voiceFilePath env.encodeOk).2.2 ∧
    (afterImageCore env q fs ip tgt).2.2 =
      (render_video (voiceFilePath :: fs) ip q voiceFilePath env.encodeOk).2.1 := by
  unfold afterImageCore
  simp [htts, hres]

/-- A failed encode prevents the upload and the archive move. -/
theorem afterImageCore_encode_fail (env : Env) (q : List Char) (fs : List (List Char))
    (ip : List Char) (tgt : Option (List Char)) (h : env.encodeOk = false) :
    Event.uploadCall ∉ (afterImageCore env q fs ip tgt).1 ∧
      ∀ n, Event.archiveMove n ∉ (afterImageCore env q fs ip tgt).1 := by
  have hrev := render_video_events (voiceFilePath :: fs) ip q voiceFilePath env.encodeOk
  by_cases htts : env.ttsOk
  · have hres : (render_video (voiceFilePath :: fs) ip q voiceFilePath env.encodeOk).1 = none := by
      rw [h]
      exact render_video_none_of_encode_fail _ _ _ _
    obtain ⟨htr, _⟩ := afterImageCore_eq_of_none env q fs ip tgt htts hres
    rw [htr]
    constructor
    · intro hm
      rcases List.mem_cons.mp hm with hm | hm
      · exact absurd hm (by simp)
      · exact absurd (hrev _ hm) (by simp)
    · intro n hm
      rcases List.mem_cons.mp hm with hm | hm
      · exact absurd hm (by simp)
      · exact absurd (hrev _ hm) (by simp)
  · rw [(afterImageCore_tts_fail env q fs ip tgt (by simpa using htts)).1]
    constructor
    · simp
    · simp

/-- A failed upload prevents the archive move. -/
theorem afterImageCore_upload_fail (env : Env) (q : List Char) (fs : List (List Char))
    (ip : List Char) (tgt : Option (List Char))
    (h : (upload_to_youtube env.ytEnvOk env.ytApi).1 = false) :
    ∀ n, Event.archiveMove n ∉ (afterImageCore env q fs ip tgt).1 := by
  have hrev := render_video_events (voiceFilePath :: fs) ip q voiceFilePath env.encodeOk
  have hup := upload_events env.ytEnvOk env.ytApi
  intro n hm
  by_cases htts : env.ttsOk
  · rcases hres : (render_video (voiceFilePath :: fs) ip q voiceFilePath env.encodeOk).1
      with _ | v
    · obtain ⟨htr, _⟩ := afterImageCore_eq_of_none env q fs ip tgt htts hres
      rw [htr] at hm
      rcases List.mem_cons.mp hm with hm | hm
      · exact absurd hm (by simp)
      · exact absurd (hrev _ hm) (by simp)
    · have htr : (afterImageCore env q fs ip tgt).1 =
          Event.ttsCall ::
            ((render_video (voiceFilePath :: fs) ip q voiceFilePath env.encodeOk).2.2 ++
              (upload_to_youtube env.ytEnvOk env.ytApi).2) := by
        unfold afterImageCore
        rcases tgt with _ | name <;> simp [htts, hres, h]
      rw [htr] at hm
      rcases List.mem_cons.mp hm with hm | hm
      · exact absurd hm (by simp)
      · rcases List.mem_append.mp hm with hm | hm
        · exact absurd (hrev _ hm) (by simp)
        · exact absurd (hup _ hm) (by simp)
  · rw [(afterImageCore_tts_fail env q fs ip tgt (by simpa using htts)).1] at hm
    simp at hm

/-- A failed upload leaves every non-temporary file of the pre-voice
filesystem in place. -/
theorem afterImageCore_fs_keeps (env : Env) (q : List Char) (fs : List (List Char))
    (ip : List Char) (tgt : Option (List Char)) (p : List Char)
    (h : (upload_to_youtube env.ytEnvOk env.ytApi).1 = false)
    (hp : p ∈ fs) (h1 : p ≠ tempBg) (h2 : p ≠ tempOverlay) :
    p ∈ (afterImageCore env q fs ip tgt).2.2 := by
  have hkeep : p ∈ (render_video (voiceFilePath :: fs) ip q voiceFilePath env.encodeOk).2.1 :=
    render_video_keeps _ _ _ _ _ _ (List.mem_cons_of_mem _ hp) h1 h2
  by_cases htts : env.ttsOk
  · rcases hres : (render_video (voiceFilePath :: fs) ip q voiceFilePath env.encodeOk).1
      with _ | v
    · obtain ⟨_, hfs⟩ := afterImageCore_eq_of_none env q fs ip tgt htts hres
      rw [hfs]
      exact hkeep
    · have hfs : (afterImageCore env q fs ip tgt).2.2 =
          (render_video (voiceFilePath :: fs) ip q voiceFilePath env.encodeOk).2.1 := by
        unfold afterImageCore
        rcases tgt with _ | name <;> simp [htts, hres, h]
      rw [hfs]
      exact hkeep
  · rw [(afterImageCore_tts_fail env q fs ip tgt (by simpa using htts)).2.2]
    exact hp

/-- An element picked by index modulo the length belongs to the list. -/
theorem getD_mod_mem {l : List (List Char)} (h : ¬ l.isEmpty = true) (i : Nat) :
    l.getD (i % l.length) [] ∈ l := by
  have hlen : 0 < l.length := by
    cases l with
    | nil => simp at h
    | cons a t => simp
  have hm : i % l.length < l.length := Nat.mod_lt _ hlen
  rw [List.getD_eq_getElem l [] hm]
  exact List.getElem_mem hm

/-- The four possible run shapes: an abort before the selector, an abort at
the empty pool, the generated-image path, and the local-pool path. -/
theorem pipelineRun_shape (env : Env) :
    (∃ out, pipelineRun env =
        ⟨(get_ai_quoteT env.geminiApiKey env.geminiResp).2, out, initialFs env⟩ ∧
        (out = RunOutcome.crashed ∨ out = RunOutcome.exited 1)) ∨
    (generate_krishna_image (env.pollinationsResp 0) = false ∧
      env.localImages.filter isImageName = [] ∧
      pipelineRun env =
        ⟨(get_ai_quoteT env.geminiApiKey env.geminiResp).2 ++ [Event.pollinationsRequest],
          RunOutcome.exited 1, initialFs env⟩) ∨
    (∃ q, generate_krishna_image (env.pollinationsResp 0) = true ∧
      pipelineRun env =
        ⟨(get_ai_quoteT env.geminiApiKey env.geminiResp).2 ++ [Event.pollinationsRequest] ++
            (afterImageCore env q (genImageFile :: initialFs env) genImageFile none).1,
          (afterImageCore env q (genImageFile :: initialFs env) genImageFile none).2.1,
          (afterImageCore env q (genImageFile :: initialFs env) genImageFile none).2.2⟩) ∨
    (∃ q name, generate_krishna_image (env.pollinationsResp 0) = false ∧
      name ∈ env.localImages.filter isImageName ∧
      pipelineRun env =
        ⟨(get_ai_quoteT env.geminiApiKey env.geminiResp).2 ++ [Event.pollinationsRequest] ++
            [Event.localPick name] ++
            (afterImageCore env q (initialFs env) (imagesDirPath name) (some name)).1,
          (afterImageCore env q (initialFs env) (imagesDirPath name) (some name)).2.1,
          (afterImageCore env q (initialFs env) (imagesDirPath name) (some name)).2.2⟩) := by
  rcases hres : (get_ai_quoteT env.geminiApiKey env.geminiResp).1 with u | data
  · exact Or.inl ⟨.crashed, by simp only [pipelineRun, hres], Or.inl rfl⟩
  · rcases hq : jsonGetStrStripped data ("quote".data) [] with u | qt
    · rcases ht : jsonGetStrStripped data ("title".data) ("Krishna Shorts 🦚".data) with u2 | tt <;>
        rcases hd : jsonGetStrStripped data ("description".data)
          ("Jai Shree Krishna #Krishna".data) with u3 | dd <;>
        exact Or.inl ⟨.crashed, by simp only [pipelineRun, hres, hq, ht, hd], Or.inl rfl⟩
    · rcases ht : jsonGetStrStripped data ("title".data) ("Krishna Shorts 🦚".data) with u2 | tt
      · rcases hd : jsonGetStrStripped data ("description".data)
          ("Jai Shree Krishna #Krishna".data) with u3 | dd <;>
          exact Or.inl ⟨.crashed, by simp only [pipelineRun, hres, hq, ht, hd], Or.inl rfl⟩
      · rcases hd : jsonGetStrStripped data ("description".data)
          ("Jai Shree Krishna #Krishna".data) with u3 | dd
        · exact Or.inl ⟨.crashed, by simp only [pipelineRun, hres, hq, ht, hd], Or.inl rfl⟩
        · by_cases hqe : qt.isEmpty
          · exact Or.inl ⟨.exited 1,
              by simp only [pipelineRun, hres, hq, ht, hd, hqe]; simp, Or.inr rfl⟩
          · by_cases hpoll : generate_krishna_image (env.pollinationsResp 0)
            · refine Or.inr (Or.inr (Or.inl ⟨qt, hpoll, ?_⟩))
              simp only [pipelineRun, hres, hq, ht, hd, hqe, hpoll, afterImage]
              simp
            · by_cases himg : (env.localImages.filter isImageName).isEmpty
              · refine Or.inr (Or.inl ⟨by simpa using hpoll, List.isEmpty_iff.mp himg, ?_⟩)
                simp only [pipelineRun, hres, hq, ht, hd, hqe, hpoll, himg]
                simp
              · refine Or.inr (Or.inr (Or.inr ⟨qt,
                  (env.localImages.filter isImageName).getD
                    (env.pickIndex % (env.localImages.filter isImageName).length) [],
                  by simpa using hpoll, getD_mod_mem himg env.pickIndex, ?_⟩))
                simp only [pipelineRun, hres, hq, ht, hd, hqe, hpoll, himg, afterImage]
                simp [List.append_assoc]

/-- All caption-stage events sit at code stage 0. -/
theorem gev_stage0 (env : Env) :
    ∀ e ∈ (get_ai_quoteT env.geminiApiKey env.geminiResp).2, stageIdxCode e = 0 := by
  intro e he
  obtain ⟨m, rfl⟩ := get_ai_quoteT_events env.geminiApiKey env.geminiResp e he
  rfl

/-- Every post-selection event sits at code stage 2 or later. -/
theorem afterImageCore_stage_ge2 (env : Env) (q : List Char) (fs : List (List Char))
    (ip : List Char) (tgt : Option (List Char)) :
    ∀ e ∈ (afterImageCore env q fs ip tgt).1, 2 ≤ stageIdxCode e := by
  intro e he
  rcases (afterImageCore_shape env q fs ip tgt).1 e he with rfl | rfl | rfl | ⟨n, rfl⟩ <;>
    simp [stageIdxCode]

/-- A sorted prefix of stage at most 1 followed by the post-selection tail is
sorted. -/
theorem sorted_prefix_core {pre core : List Event}
    (hps : (pre.map stageIdxCode).Sorted (· ≤ ·))
    (hpb : ∀ e ∈ pre, stageIdxCode e ≤ 1)
    (hcs : (core.map stageIdxCode).Sorted (· ≤ ·))
    (hcb : ∀ e ∈ core, 2 ≤ stageIdxCode e) :
    (((pre ++ core).map stageIdxCode)).Sorted (· ≤ ·) := by
  rw [List.map_append]
  refine sorted_le_append hps hcs ?_
  intro a ha b hb
  obtain ⟨x, hx, rfl⟩ := List.mem_map.mp ha
  obtain ⟨y, hy, rfl⟩ := List.mem_map.mp hb
  exact le_trans (hpb x hx) (le_trans (by omega) (hcb y hy))

/-- Claim C6 counterexample: with every service healthy the recorded trace is
Caption Generator, then Selector, then Voice, Compositor, Publisher — the
caption stage runs before the image-selection stage, so the trace is not
ordered by the claimed stage order. -/
theorem c6_counterexample :
    (pipelineRun envAllOk).trace =
      [Event.geminiCall "gemini-2.5-flash".data, Event.pollinationsRequest,
        Event.ttsCall, Event.encoderRun, Event.uploadCall] ∧
      ¬ ((pipelineRun envAllOk).trace.map stageIdxClaim).Sorted (· ≤ ·) := by
  constructor
  · rfl
  · intro h
    rw [show (pipelineRun envAllOk).trace.map stageIdxClaim = [1, 0, 2, 3, 4] from rfl] at h
    rw [List.sorted_cons] at h
    have := h.1 0 (by simp)
    omega

/-- Claim C6 amended: the stages execute strictly sequentially in the order
Caption Generator, then Selector (image acquisition), then Voice Synthesizer,
then Compositor, then Publisher (the code calls the caption generator before
acquiring the image), and a failure at any step prevents all later steps from
running. -/
theorem c6_amended (env : Env) :
    ((pipelineRun env).trace.map stageIdxCode).Sorted (· ≤ ·) ∧
    (get_ai_quote env.geminiApiKey env.geminiResp = .error () →
      (pipelineRun env).outcome = .crashed ∧
        ∀ e ∈ (pipelineRun env).trace, stageIdxCode e = 0) ∧
    (env.ttsOk = false →
      Event.encoderRun ∉ (pipelineRun env).trace ∧
        Event.uploadCall ∉ (pipelineRun env).trace ∧
        ∀ n, Event.archiveMove n ∉ (pipelineRun env).trace) ∧
    (env.encodeOk = false →
      Event.uploadCall ∉ (pipelineRun env).trace ∧
        ∀ n, Event.archiveMove n ∉ (pipelineRun env).trace) ∧
    ((env.ytEnvOk = false ∨ env.ytApi = .error ()) →
      ∀ n, Event.archiveMove n ∉ (pipelineRun env).trace) := by
  have hg0 := gev_stage0 env
  have hgnm : ∀ e ∈ (get_ai_quoteT env.geminiApiKey env.geminiResp).2,
      e ≠ Event.encoderRun ∧ e ≠ Event.uploadCall ∧ ∀ n, e ≠ Event.archiveMove n := by
    intro e he
    obtain ⟨m, rfl⟩ := get_ai_quoteT_events env.geminiApiKey env.geminiResp e he
    refine ⟨by simp, by simp, by simp⟩
  have hgem : get_ai_quote env.geminiApiKey env.geminiResp = .error () →
      (pipelineRun env).outcome = .crashed ∧
        ∀ e ∈ (pipelineRun env).trace, stageIdxCode e = 0 := by
    intro hge
    unfold get_ai_quote at hge
    rw [show pipelineRun env =
        ⟨(get_ai_quoteT env.geminiApiKey env.geminiResp).2, .crashed, initialFs env⟩ from by
      simp only [pipelineRun, hge]]
    exact ⟨rfl, hg0⟩
  have hpre1 : ∀ e ∈ (get_ai_quoteT env.geminiApiKey env.geminiResp).2 ++
      [Event.pollinationsRequest], stageIdxCode e ≤ 1 := by
    intro e he
    rcases List.mem_append.mp he with he | he
    · rw [hg0 e he]; omega
    · simp at he; subst he; decide
  have hpres : ((((get_ai_quoteT env.geminiApiKey env.geminiResp).2 ++
      [Event.pollinationsRequest]).map stageIdxCode)).Sorted (· ≤ ·) := by
    rw [List.map_append]
    refine sorted_le_append (sorted_le_of_all_eq (c := 0) ?_) (by simp) ?_
    · intro x hx
      obtain ⟨y, hy, rfl⟩ := List.mem_map.mp hx
      exact hg0 y hy
    · intro a ha b hb
      obtain ⟨y, hy, rfl⟩ := List.mem_map.mp ha
      simp at hb
      subst hb
      rw [hg0 y hy]
      decide
  have hprenm : ∀ e ∈ (get_ai_quoteT env.geminiApiKey env.geminiResp).2 ++
      [Event.pollinationsRequest],
      e ≠ Event.encoderRun ∧ e ≠ Event.uploadCall ∧ ∀ n, e ≠ Event.archiveMove n := by
    intro e he
    rcases List.mem_append.mp he with he | he
    · exact hgnm e he
    · simp at he; subst he; refine ⟨by simp, by simp, by simp⟩
  rcases pipelineRun_shape env with ⟨out, hrun, _⟩ | ⟨_, _, hrun⟩ |
      ⟨q, _, hrun⟩ | ⟨q, name, _, _, hrun⟩
  · rw [hrun] at hgem ⊢
    refine ⟨?_, hgem, fun _ => ⟨?_, ?_, ?_⟩, fun _ => ⟨?_, ?_⟩, fun _ => ?_⟩
    · exact sorted_le_of_all_eq (c := 0) (fun x hx => by
        obtain ⟨y, hy, rfl⟩ := List.mem_map.mp hx; exact hg0 y hy)
    · exact fun hm => (hgnm _ hm).1 rfl
    · exact fun hm => (hgnm _ hm).2.1 rfl
    · exact fun n hm => (hgnm _ hm).2.2 n rfl
    · exact fun hm => (hgnm _ hm).2.1 rfl
    · exact fun n hm => (hgnm _ hm).2.2 n rfl
    · exact fun n hm => (hgnm _ hm).2.2 n rfl
  · rw [hrun] at hgem ⊢
    refine ⟨hpres, hgem, fun _ => ⟨?_, ?_, ?_⟩, fun _ => ⟨?_, ?_⟩, fun _ => ?_⟩
    · exact fun hm => (hprenm _ hm).1 rfl
    · exact fun hm => (hprenm _ hm).2.1 rfl
    · exact fun n hm => (hprenm _ hm).2.2 n rfl
    · exact fun hm => (hprenm _ hm).2.1 rfl
    · exact fun n hm => (hprenm _ hm).2.2 n rfl
    · exact fun n hm => (hprenm _ hm).2.2 n rfl
  · rw [hrun] at hgem ⊢
    refine ⟨?_, hgem, ?_, ?_, ?_⟩
    · exact sorted_prefix_core hpres hpre1 (afterImageCore_shape env q _ genImageFile none).2
        (afterImageCore_stage_ge2 env q _ genImageFile none)
    · intro htts
      obtain ⟨hcore, _, _⟩ := afterImageCore_tts_fail env q
        (genImageFile :: initialFs env) genImageFile none htts
      rw [hcore]
      refine ⟨?_, ?_, ?_⟩
      · intro hm
        rcases List.mem_append.mp hm with hm | hm
        · exact (hprenm _ hm).1 rfl
        · simp at hm
      · intro hm
        rcases List.mem_append.mp hm with hm | hm
        · exact (hprenm _ hm).2.1 rfl
        · simp at hm
      · intro n hm
        rcases List.mem_append.mp hm with hm | hm
        · exact (hprenm _ hm).2.2 n rfl
        · simp at hm
    · intro henc
      obtain ⟨hupl, harch⟩ := afterImageCore_encode_fail env q
        (genImageFile :: initialFs env) genImageFile none henc
      refine ⟨?_, ?_⟩
      · intro hm
        rcases List.mem_append.mp hm with hm | hm
        · exact (hprenm _ hm).2.1 rfl
        · exact hupl hm
      · intro n hm
        rcases List.mem_append.mp hm with hm | hm
        · exact (hprenm _ hm).2.2 n rfl
        · exact harch n hm
    · intro hyt n hm
      rcases List.mem_append.mp hm with hm | hm
      · exact (hprenm _ hm).2.2 n rfl
      · exact afterImageCore_upload_fail env q (genImageFile :: initialFs env) genImageFile none
          (upload_fails env.ytEnvOk env.ytApi hyt) n hm
  · rw [hrun] at hgem ⊢
    have hpre1' : ∀ e ∈ (get_ai_quoteT env.geminiApiKey env.geminiResp).2 ++
        [Event.pollinationsRequest] ++ [Event.localPick name], stageIdxCode e ≤ 1 := by
      intro e he
      rcases List.mem_append.mp he with he | he
      · exact hpre1 e he
      · simp at he; subst he; simp [stageIdxCode]
    have hpres' : ((((get_ai_quoteT env.geminiApiKey env.geminiResp).2 ++
        [Event.pollinationsRequest] ++ [Event.localPick name]).map stageIdxCode)).Sorted
          (· ≤ ·) := by
      rw [List.map_append]
      refine sorted_le_append hpres (by simp) ?_
      intro a ha b hb
      obtain ⟨y, hy, rfl⟩ := List.mem_map.mp ha
      simp at hb
      subst hb
      exact le_trans (hpre1 y hy) (by simp [stageIdxCode])
    have hprenm' : ∀ e ∈ (get_ai_quoteT env.geminiApiKey env.geminiResp).2 ++
        [Event.pollinationsRequest] ++ [Event.localPick name],
        e ≠ Event.encoderRun ∧ e ≠ Event.uploadCall ∧ ∀ n, e ≠ Event.archiveMove n := by
      intro e he
      rcases List.mem_append.mp he with he | he
      · exact hprenm e he
      · simp at he; subst he; refine ⟨by simp, by simp, by simp⟩
    refine ⟨?_, hgem, ?_, ?_, ?_⟩
    · exact sorted_prefix_core hpres' hpre1'
        (afterImageCore_shape env q _ (imagesDirPath name) (some name)).2
        (afterImageCore_stage_ge2 env q _ (imagesDirPath name) (some name))
    · intro htts
      obtain ⟨hcore, _, _⟩ := afterImageCore_tts_fail env q (initialFs env)
        (imagesDirPath name) (some name) htts
      rw [hcore]
      refine ⟨?_, ?_, ?_⟩
      · intro hm
        rcases List.mem_append.mp hm with hm | hm
        · exact (hprenm' _ hm).1 rfl
        · simp at hm
      · intro hm
        rcases List.mem_append.mp hm with hm | hm
        · exact (hprenm' _ hm).2.1 rfl
        · simp at hm
      · intro n hm
        rcases List.mem_append.mp hm with hm | hm
        · exact (hprenm' _ hm).2.2 n rfl
        · simp at hm
    · intro henc
      obtain ⟨hupl, harch⟩ := afterImageCore_encode_fail env q (initialFs env)
        (imagesDirPath name) (some name) henc
      refine ⟨?_, ?_⟩
      · intro hm
        rcases List.mem_append.mp hm with hm | hm
        · exact (hprenm' _ hm).2.1 rfl
        · exact hupl hm
      · intro n hm
        rcases List.mem_append.mp hm with hm | hm
        · exact (hprenm' _ hm).2.2 n rfl
        · exact harch n hm
    · intro hyt n hm
      rcases List.mem_append.mp hm with hm | hm
      · exact (hprenm' _ hm).2.2 n rfl
      · exact afterImageCore_upload_fail env q (initialFs env) (imagesDirPath name) (some name)
          (upload_fails env.ytEnvOk env.ytApi hyt) n hm

/-- No selector event is recorded by the caption stage. -/
theorem gev_no_sel (env : Env) :
    Event.pollinationsRequest ∉ (get_ai_quoteT env.geminiApiKey env.geminiResp).2 ∧
      ∀ n, Event.localPick n ∉ (get_ai_quoteT env.geminiApiKey env.geminiResp).2 := by
  constructor
  · intro hm
    obtain ⟨m, hme⟩ := get_ai_quoteT_events env.geminiApiKey env.geminiResp _ hm
    simp at hme
  · intro n hm
    obtain ⟨m, hme⟩ := get_ai_quoteT_events env.geminiApiKey env.geminiResp _ hm
    simp at hme

/-- No selector event is recorded after image selection. -/
theorem core_no_sel (env : Env) (q : List Char) (fs : List (List Char))
    (ip : List Char) (tgt : Option (List Char)) :
    Event.pollinationsRequest ∉ (afterImageCore env q fs ip tgt).1 ∧
      ∀ n, Event.localPick n ∉ (afterImageCore env q fs ip tgt).1 := by
  constructor
  · intro hm
    rcases (afterImageCore_shape env q fs ip tgt).1 _ hm with h | h | h | ⟨n, h⟩ <;> simp at h
  · intro n hm
    rcases (afterImageCore_shape env q fs ip tgt).1 _ hm with h | h | h | ⟨m, h⟩ <;> simp at h

/-- Claim C5 counterexample: the single Pollinations request fails while a
second request would have succeeded, yet the pipeline makes exactly one
request and falls straight back to the local pool — there is no retry loop. -/
theorem c5_counterexample :
    (pipelineRun envRetry).trace.count Event.pollinationsRequest = 1 ∧
      Event.localPick "img1.jpg".data ∈ (pipelineRun envRetry).trace ∧
      envRetry.pollinationsResp 1 = .ok 200 := by
  refine ⟨by decide, by decide, rfl⟩

/-- Claim C5 amended: the remote image endpoint is requested exactly once per
run — no retries and no delay; on a failed request the pipeline falls back to
the local pool immediately, and when the pool is also empty the run aborts
with exit status 1 before any render or upload attempt. -/
theorem c5_amended (env : Env) :
    (pipelineRun env).trace.count Event.pollinationsRequest ≤ 1 ∧
    (generate_krishna_image (env.pollinationsResp 0) = false →
      env.localImages.filter isImageName = [] →
      Event.pollinationsRequest ∈ (pipelineRun env).trace →
      (pipelineRun env).outcome = .exited 1 ∧
        Event.encoderRun ∉ (pipelineRun env).trace ∧
        Event.uploadCall ∉ (pipelineRun env).trace) ∧
    (generate_krishna_image (env.pollinationsResp 0) = false →
      ¬ env.localImages.filter isImageName = [] →
      Event.pollinationsRequest ∈ (pipelineRun env).trace →
      ∃ name, name ∈ env.localImages.filter isImageName ∧
        Event.localPick name ∈ (pipelineRun env).trace) := by
  have hgev := gev_no_sel env
  have hgcount : (get_ai_quoteT env.geminiApiKey env.geminiResp).2.count
      Event.pollinationsRequest = 0 := List.count_eq_zero.mpr hgev.1
  have hgnm := fun e hm => get_ai_quoteT_events env.geminiApiKey env.geminiResp e hm
  rcases pipelineRun_shape env with ⟨out, hrun, _⟩ | ⟨hpoll, himg, hrun⟩ |
      ⟨q, hpoll, hrun⟩ | ⟨q, name, hpoll, hname, hrun⟩
  · rw [hrun]
    refine ⟨by simp [hgcount], ?_, ?_⟩
    · intro _ _ hm
      exact absurd hm hgev.1
    · intro _ _ hm
      exact absurd hm hgev.1
  · rw [hrun]
    refine ⟨?_, ?_, ?_⟩
    · simp [List.count_append, hgcount]
    · intro _ _ _
      refine ⟨rfl, ?_, ?_⟩
      · intro hm
        rcases List.mem_append.mp hm with hm | hm
        · obtain ⟨m, hme⟩ := hgnm _ hm; simp at hme
        · simp at hm
      · intro hm
        rcases List.mem_append.mp hm with hm | hm
        · obtain ⟨m, hme⟩ := hgnm _ hm; simp at hme
        · simp at hm
    · intro _ hne _
      exact absurd himg hne
  · rw [hrun]
    refine ⟨?_, ?_, ?_⟩
    · rw [List.count_append, List.count_append]
      have hc : (afterImageCore env q (genImageFile :: initialFs env) genImageFile none).1.count
          Event.pollinationsRequest = 0 :=
        List.count_eq_zero.mpr (core_no_sel env q _ genImageFile none).1
      simp [hgcount, hc]
    · intro hpf
      rw [hpoll] at hpf
      simp at hpf
    · intro hpf
      rw [hpoll] at hpf
      simp at hpf
  · rw [hrun]
    refine ⟨?_, ?_, ?_⟩
    · rw [List.count_append, List.count_append, List.count_append]
      have hc : (afterImageCore env q (initialFs env) (imagesDirPath name) (some name)).1.count
          Event.pollinationsRequest = 0 :=
        List.count_eq_zero.mpr (core_no_sel env q _ (imagesDirPath name) (some name)).1
      simp [hgcount, hc]
    · intro _ hempty _
      rw [hempty] at hname
      simp at hname
    · intro _ _ _
      refine ⟨name, hname, ?_⟩
      refine List.mem_append.mpr (Or.inl ?_)
      refine List.mem_append.mpr (Or.inr ?_)
      simp

/-- The local-pool path of a file name never collides with the temporary
rasters. -/
theorem imagesDirPath_ne_temps (n : List Char) :
    imagesDirPath n ≠ tempBg ∧ imagesDirPath n ≠ tempOverlay := by
  constructor
  · intro heq
    have h1 : (imagesDirPath n).head? = some 'i' := rfl
    rw [heq] at h1
    rw [show tempBg.head? = some 't' from rfl] at h1
    simp at h1
  · intro heq
    have h1 : (imagesDirPath n).head? = some 'i' := rfl
    rw [heq] at h1
    rw [show tempOverlay.head? = some 't' from rfl] at h1
    simp at h1

/-- Claim C8: the archive move happens only after a confirmed successful
upload — whenever upload_to_youtube reports failure (missing credentials or
a raised exception), no image is moved and every locally-pooled source image
that was picked is still in the images directory afterwards. -/
theorem c8_failed_upload_keeps_image (env : Env)
    (h : env.ytEnvOk = false ∨ env.ytApi = .error ()) :
    (∀ n, Event.archiveMove n ∉ (pipelineRun env).trace) ∧
    (∀ name, Event.localPick name ∈ (pipelineRun env).trace →
      imagesDirPath name ∈ (pipelineRun env).finalFs) := by
  have hupf := upload_fails env.ytEnvOk env.ytApi h
  have hgev := gev_no_sel env
  have hgnm := fun e hm => get_ai_quoteT_events env.geminiApiKey env.geminiResp e hm
  rcases pipelineRun_shape env with ⟨out, hrun, _⟩ | ⟨hpoll, himg, hrun⟩ |
      ⟨q, hpoll, hrun⟩ | ⟨q, name, hpoll, hname, hrun⟩
  · rw [hrun]
    constructor
    · intro n hm
      obtain ⟨m, hme⟩ := hgnm _ hm
      simp at hme
    · intro nm hm
      exact absurd hm (hgev.2 nm)
  · rw [hrun]
    constructor
    · intro n hm
      rcases List.mem_append.mp hm with hm | hm
      · obtain ⟨m, hme⟩ := hgnm _ hm; simp at hme
      · simp at hm
    · intro nm hm
      rcases List.mem_append.mp hm with hm | hm
      · exact absurd hm (hgev.2 nm)
      · simp at hm
  · rw [hrun]
    constructor
    · intro n hm
      rcases List.mem_append.mp hm with hm | hm
      · rcases List.mem_append.mp hm with hm | hm
        · obtain ⟨m, hme⟩ := hgnm _ hm; simp at hme
        · simp at hm
      · exact afterImageCore_upload_fail env q _ genImageFile none hupf n hm
    · intro nm hm
      rcases List.mem_append.mp hm with hm | hm
      · rcases List.mem_append.mp hm with hm | hm
        · exact absurd hm (hgev.2 nm)
        · simp at hm
      · exact absurd hm ((core_no_sel env q _ genImageFile none).2 nm)
  · rw [hrun]
    constructor
    · intro n hm
      rcases List.mem_append.mp hm with hm | hm
      · rcases List.mem_append.mp hm with hm | hm
        · rcases List.mem_append.mp hm with hm | hm
          · obtain ⟨m, hme⟩ := hgnm _ hm; simp at hme
          · simp at hm
        · simp at hm
      · exact afterImageCore_upload_fail env q _ (imagesDirPath name) (some name) hupf n hm
    · intro nm hm
      have hnm : nm = name := by
        rcases List.mem_append.mp hm with hm | hm
        · rcases List.mem_append.mp hm with hm | hm
          · rcases List.mem_append.mp hm with hm | hm
            · exact absurd hm (hgev.2 nm)
            · simp at hm
          · simp at hm
            exact hm
        · exact absurd hm ((core_no_sel env q _ (imagesDirPath name) (some name)).2 nm)
      subst hnm
      have hmem : imagesDirPath nm ∈ initialFs env := by
        refine List.mem_append.mpr (Or.inr ?_)
        exact List.mem_map_of_mem imagesDirPath (List.mem_of_mem_filter hname)
      exact afterImageCore_fs_keeps env q (initialFs env) (imagesDirPath nm) (some nm)
        (imagesDirPath nm) hupf hmem (imagesDirPath_ne_temps nm).1
        (imagesDirPath_ne_temps nm).2

/-- Claim C8 witness: with an upload that raises an authentication exception,
the picked local image img1.jpg is not moved and remains in the images
directory. -/
theorem c8_witness :
    Event.localPick "img1.jpg".data ∈ (pipelineRun envUploadFail).trace ∧
      imagesDirPath "img1.jpg".data ∈ (pipelineRun envUploadFail).finalFs ∧
      ∀ n, Event.archiveMove n ∉ (pipelineRun envUploadFail).trace := by
  have h := c8_failed_upload_keeps_image envUploadFail (Or.inr rfl)
  exact ⟨by decide, h.2 _ (by decide), h.1⟩

/-- Stripping changes nothing when both ends are non-whitespace. -/
theorem pyStrip_eq_self {s : List Char}
    (h1 : ∀ c, s.head? = some c → isPySpace c = false)
    (h2 : ∀ c, s.getLast? = some c → isPySpace c = false) : pyStrip s = s := by
  unfold pyStrip
  have hd : s.dropWhile isPySpace = s := by
    cases s with
    | nil => rfl
    | cons a t =>
      rw [List.dropWhile_cons, h1 a rfl]
      simp
  rw [hd]
  have hr : s.reverse.dropWhile isPySpace = s.reverse := by
    cases hrev : s.reverse with
    | nil => rfl
    | cons a t =>
      rw [List.dropWhile_cons]
      have hg : s.getLast? = some a := by
        rw [← List.head?_reverse, hrev]
        rfl
      rw [h2 a hg]
      simp
  rw [hr, List.reverse_reverse]

/-- Finding skips a prefix free of the character. -/
theorem pyFind_append {c : Char} {a : List Char} (s : List Char) (ha : c ∉ a) :
    pyFind c (a ++ s) = (pyFind c s).map (· + a.length) := by
  induction a with
  | nil => simp [Option.map_id']
  | cons x t ih =>
    have hx : (x == c) = false := by
      simp only [beq_eq_false_iff_ne]
      intro hxc
      exact ha (hxc ▸ List.mem_cons_self x t)
    rw [List.cons_append]
    show (if x == c then some 0 else (pyFind c (t ++ s)).map (· + 1)) = _
    rw [hx]
    simp only [if_false, Bool.false_eq_true]
    rw [ih (fun hm => ha (List.mem_cons_of_mem x hm))]
    cases pyFind c s <;> simp <;> omega

/-- Finding stops at the character itself. -/
theorem pyFind_cons_self (c : Char) (t : List Char) : pyFind c (c :: t) = some 0 := by
  show (if c == c then some 0 else _) = some 0
  simp

/-- Reverse finding ignores a suffix free of the character. -/
theorem pyRfind_append_right {c : Char} {s : List Char} (a : List Char) (hs : c ∉ s) :
    pyRfind c (a ++ s) = pyRfind c a := by
  induction a with
  | nil =>
    simp only [List.nil_append]
    induction s with
    | nil => rfl
    | cons x t ih =>
      show (match pyRfind c t with
        | some i => some (i + 1)
        | none => if x == c then some 0 else none) = none
      rw [ih (fun hm => hs (List.mem_cons_of_mem x hm))]
      have hx : (x == c) = false := by
        simp only [beq_eq_false_iff_ne]
        intro hxc
        exact hs (hxc ▸ List.mem_cons_self x t)
      simp [pyRfind, hx]
  | cons x t ih =>
    show (match pyRfind c (t ++ s) with
      | some i => some (i + 1)
      | none => if x == c then some 0 else none) =
      (match pyRfind c t with
        | some i => some (i + 1)
        | none => if x == c then some 0 else none)
    rw [ih]

/-- Reverse finding locates a final occurrence. -/
theorem pyRfind_snoc_self (c : Char) (a : List Char) :
    pyRfind c (a ++ [c]) = some a.length := by
  induction a with
  | nil =>
    show (match pyRfind c [] with
      | some i => some (i + 1)
      | none => if c == c then some 0 else none) = some 0
    simp [pyRfind]
  | cons x t ih =>
    show (match pyRfind c (t ++ [c]) with
      | some i => some (i + 1)
      | none => if x == c then some 0 else none) = some (t.length + 1)
    rw [ih]

/-- A successful find decomposes the string at the found index. -/
theorem pyFind_eq_some {c : Char} : ∀ {s : List Char} {i : Nat},
    pyFind c s = some i → ∃ a b, s = a ++ c :: b ∧ a.length = i := by
  intro s
  induction s with
  | nil => intro i h; simp [pyFind] at h
  | cons x t ih =>
    intro i h
    by_cases hx : (x == c) = true
    · rw [show pyFind c (x :: t) = some 0 by simp [pyFind, hx]] at h
      obtain rfl : (0 : Nat) = i := by simpa using h
      exact ⟨[], t, by simp [eq_of_beq hx], rfl⟩
    · rw [show pyFind c (x :: t) = (pyFind c t).map (· + 1) by
        simp [pyFind, hx]] at h
      rcases hft : pyFind c t with _ | j
      · rw [hft] at h; simp at h
      · rw [hft] at h
        simp at h
        obtain ⟨a, b, rfl, hlen⟩ := ih hft
        exact ⟨x :: a, b, rfl, by simp [hlen, h]⟩

/-- A successful reverse find decomposes the string at the found index. -/
theorem pyRfind_eq_some {c : Char} : ∀ {s : List Char} {i : Nat},
    pyRfind c s = some i → ∃ a b, s = a ++ c :: b ∧ a.length = i := by
  intro s
  induction s with
  | nil => intro i h; simp [pyRfind] at h
  | cons x t ih =>
    intro i h
    rcases hft : pyRfind c t with _ | j
    · rw [show pyRfind c (x :: t) = if x == c then some 0 else none by
        simp [pyRfind, hft]] at h
      by_cases hx : (x == c) = true
      · rw [hx] at h
        simp at h
        exact ⟨[], t, by simp [eq_of_beq hx], h ▸ rfl⟩
      · simp [hx] at h
    · rw [show pyRfind c (x :: t) = some (j + 1) by simp [pyRfind, hft]] at h
      obtain rfl : j + 1 = i := by simpa using h
      obtain ⟨a, b, rfl, hlen⟩ := ih hft
      exact ⟨x :: a, b, rfl, by simp [hlen]⟩

/-- Stripping yields a sublist. -/
theorem pyStrip_sublist (s : List Char) : List.Sublist (pyStrip s) s := by
  unfold pyStrip
  have h1 : List.Sublist (s.dropWhile isPySpace) s := List.dropWhile_sublist _
  have h2 : List.Sublist ((s.dropWhile isPySpace).reverse.dropWhile isPySpace)
      (s.dropWhile isPySpace).reverse := List.dropWhile_sublist _
  have h3 := h2.reverse
  rw [List.reverse_reverse] at h3
  exact h3.trans h1

/-- Replacement deletes at most characters: the result is a sublist. -/
theorem replaceDelF_sublist (pat : List Char) :
    ∀ (f : Nat) (s : List Char), List.Sublist (replaceDelF pat f s) s := by
  intro f
  induction f with
  | zero => intro s; cases s <;> exact List.Sublist.refl _
  | succ g ih =>
    intro s
    cases s with
    | nil => exact List.Sublist.refl []
    | cons c t =>
      show List.Sublist
        (if !pat.isEmpty && ((c :: t).take pat.length == pat) then
          replaceDelF pat g ((c :: t).drop pat.length)
        else c :: replaceDelF pat g t) (c :: t)
      split
      · exact (ih _).trans (List.drop_sublist _ _)
      · exact (ih t).cons₂ c

/-- Replacement is the identity when no suffix starts with the pattern. -/
theorem replaceDelF_id {pat s : List Char}
    (h : ∀ t, List.IsSuffix t s → t.take pat.length ≠ pat ∨ pat = []) :
    ∀ f, replaceDelF pat f s = s := by
  induction s with
  | nil => intro f; cases f <;> rfl
  | cons c t ih =>
    intro f
    cases f with
    | zero => rfl
    | succ g =>
      show (if !pat.isEmpty && ((c :: t).take pat.length == pat) then _ else
        c :: replaceDelF pat g t) = c :: t
      rw [if_neg, ih (fun u hu => h u (hu.trans (List.suffix_cons c t))) g]
      intro hand
      rw [Bool.and_eq_true] at hand
      rcases h (c :: t) (List.suffix_refl _) with hne | hemp
      · exact hne (by simpa using hand.2)
      · rw [hemp] at hand
        simp at hand

/-- Replacement over a match-free prefix walks past it. -/
theorem replaceDelF_walk {pat : List Char} :
    ∀ (x : List Char) (y : List Char) (f : Nat),
      (∀ a, List.IsSuffix a x → a ≠ [] → (a ++ y).take pat.length ≠ pat) →
      x.length ≤ f →
      replaceDelF pat f (x ++ y) = x ++ replaceDelF pat (f - x.length) y := by
  intro x
  induction x with
  | nil => intro y f _ _; simp
  | cons c t ih =>
    intro y f h hf
    cases f with
    | zero => exact absurd hf (by simp)
    | succ g =>
      rw [List.cons_append]
      show (if !pat.isEmpty && ((c :: (t ++ y)).take pat.length == pat) then _ else
        c :: replaceDelF pat g (t ++ y)) = c :: t ++ replaceDelF pat (g + 1 - (t.length + 1)) y
      rw [if_neg, ih y g (fun a ha hne => h a (ha.trans (List.suffix_cons c t)) hne)
        (by simpa using hf)]
      · show c :: (t ++ _) = c :: t ++ _
        rw [show g - t.length = g + 1 - (t.length + 1) by omega]
        simp
      · intro hand
        rw [Bool.and_eq_true] at hand
        have := h (c :: t) (List.suffix_refl _) (by simp)
        rw [List.cons_append] at this
        exact this (by simpa using hand.2)

/-- Replacement removes a pattern sitting at the very front. -/
theorem replaceDel_prefix_match (pc : Char) (pt r : List Char) :
    replaceDel ((pc :: pt) ++ r) (pc :: pt) =
      replaceDelF (pc :: pt) (pt.length + r.length) r := by
  unfold replaceDel
  have h1 : (pc :: pt) ++ r = pc :: (pt ++ r) := by simp
  rw [h1]
  rw [show (pc :: (pt ++ r)).length = (pt.length + r.length) + 1 by simp]
  show (if !(pc :: pt).isEmpty && ((pc :: (pt ++ r)).take (pc :: pt).length == pc :: pt) then
      replaceDelF (pc :: pt) (pt.length + r.length) ((pc :: (pt ++ r)).drop (pc :: pt).length)
    else pc :: replaceDelF (pc :: pt) (pt.length + r.length) (pt ++ r)) = _
  rw [if_pos]
  · rw [show pc :: (pt ++ r) = (pc :: pt) ++ r from h1.symm, List.drop_left]
  · rw [Bool.and_eq_true]
    refine ⟨by simp, ?_⟩
    rw [show pc :: (pt ++ r) = (pc :: pt) ++ r from h1.symm, List.take_left]
    exact beq_self_eq_true _

/-- Decomposing a suffix of an append. -/
theorem suffix_split {t x y : List Char} (h : List.IsSuffix t (x ++ y)) :
    List.IsSuffix t y ∨ ∃ x', List.IsSuffix x' x ∧ x' ≠ [] ∧ t = x' ++ y := by
  induction x with
  | nil => exact Or.inl (by simpa using h)
  | cons c x'' ih =>
    rw [List.cons_append, List.suffix_cons_iff] at h
    rcases h with rfl | h
    · exact Or.inr ⟨c :: x'', List.suffix_refl _, by simp, by simp⟩
    · rcases ih h with h | ⟨x', hx, hne, rfl⟩
      · exact Or.inl h
      · exact Or.inr ⟨x', hx.trans (List.suffix_cons c x''), hne, rfl⟩

/-- Prefix equality forces head equality. -/
theorem take_eq_head {t pat : List Char} {n : Nat} (h : t.take n = pat) (hp : pat ≠ []) :
    t.head? = pat.head? := by
  cases n with
  | zero => simp at h; exact absurd h hp
  | succ m =>
    cases t with
    | nil => simp at h; exact absurd h hp
    | cons c t' =>
      rw [List.take_succ_cons] at h
      rw [← h]
      rfl

/-- A short string never equals a longer prefix pattern. -/
theorem take_ne_of_short {t pat : List Char} (n : Nat) (h : t.length < pat.length) :
    t.take n ≠ pat := by
  intro he
  have hle : (t.take n).length ≤ t.length := by
    rw [List.length_take]
    omega
  rw [he] at hle
  omega

/-- A string with a known last element decomposes. -/
theorem getLast?_decomp {l : List Char} {x : Char} (h : l.getLast? = some x) :
    ∃ l', l = l' ++ [x] := by
  rw [← List.head?_reverse] at h
  cases hrev : l.reverse with
  | nil => rw [hrev] at h; simp at h
  | cons c t =>
    rw [hrev] at h
    simp at h
    subst h
    refine ⟨t.reverse, ?_⟩
    have hc := congrArg List.reverse hrev
    rw [List.reverse_reverse] at hc
    rw [hc]
    simp

/-- A string with a known head decomposes. -/
theorem head?_decomp {l : List Char} {x : Char} (h : l.head? = some x) :
    ∃ l', l = x :: l' := by
  cases l with
  | nil => simp at h
  | cons c t =>
    simp at h
    exact ⟨t, by rw [h]⟩

/-- Splitting a union of optional values. -/
theorem or_eq_some_cases {o1 o2 : Option Char} {c : Char} (h : o1.or o2 = some c) :
    o1 = some c ∨ (o1 = none ∧ o2 = some c) := by
  cases o1 <;> simp_all

/-- Finding the bracket positions around a brace-delimited body. -/
theorem find_shape {a b q : List Char} (hb1 : b.head? = some lbrace) (hal : lbrace ∉ a) :
    pyFind lbrace (a ++ (b ++ q)) = some a.length := by
  obtain ⟨b', rfl⟩ := head?_decomp hb1
  rw [pyFind_append _ hal, List.cons_append, pyFind_cons_self]
  simp

/-- Reverse-finding the closing bracket of a brace-delimited body. -/
theorem rfind_shape {a b q : List Char} (hb2 : b.getLast? = some rbrace) (hqr : rbrace ∉ q) :
    pyRfind rbrace (a ++ (b ++ q)) = some (a.length + b.length - 1) := by
  obtain ⟨b2, rfl⟩ := getLast?_decomp hb2
  rw [show a ++ ((b2 ++ [rbrace]) ++ q) = ((a ++ b2) ++ [rbrace]) ++ q by simp]
  rw [pyRfind_append_right _ hqr, pyRfind_snoc_self]
  congr 1
  simp

/-- The bracket slice of a brace-delimited body surrounded by brace-free
text is the body itself. -/
theorem extract_match_shape {a b q : List Char} (hb1 : b.head? = some lbrace)
    (hb2 : b.getLast? = some rbrace) (hal : lbrace ∉ a) (hqr : rbrace ∉ q) :
    (match pyFind lbrace (a ++ (b ++ q)), pyRfind rbrace (a ++ (b ++ q)) with
      | some s, some e => some (((a ++ (b ++ q)).drop s).take (e + 1 - s))
      | _, _ => none) = some b := by
  rw [find_shape hb1 hal, rfind_shape hb2 hqr]
  show some (((a ++ (b ++ q)).drop a.length).take (a.length + b.length - 1 + 1 - a.length)) =
    some b
  rw [List.drop_left]
  have hlen : b.length ≠ 0 := by
    obtain ⟨b', rfl⟩ := head?_decomp hb1
    simp
  rw [show a.length + b.length - 1 + 1 - a.length = b.length by omega]
  rw [List.take_left]

/-- Extraction succeeds on a JSON object inside plain prose. -/
theorem extract_prose {b p q : List Char} (hb1 : b.head? = some lbrace)
    (hb2 : b.getLast? = some rbrace)
    (hpc : ∃ pc p', p = pc :: p' ∧ isPySpace pc = false ∧ pc ≠ btick)
    (hpl : lbrace ∉ p) (hqr : rbrace ∉ q)
    (hqe : ∀ c, q.getLast? = some c → isPySpace c = false) :
    extractJsonText (p ++ (b ++ q)) = some b := by
  obtain ⟨pc, p', rfl, hpcs, hpcb⟩ := hpc
  have hstrip : pyStrip ((pc :: p') ++ (b ++ q)) = (pc :: p') ++ (b ++ q) := by
    refine pyStrip_eq_self ?_ ?_
    · intro c hc
      rw [show ((pc :: p') ++ (b ++ q)).head? = some pc from rfl] at hc
      obtain rfl : pc = c := by simpa using hc
      exact hpcs
    · intro c hc
      rw [List.getLast?_append, List.getLast?_append] at hc
      rcases or_eq_some_cases hc with hc1 | ⟨hc1, hc2⟩
      · rcases or_eq_some_cases hc1 with hq1 | ⟨hq1, hb'⟩
        · exact hqe c hq1
        · rw [hb2] at hb'
          obtain rfl : rbrace = c := by simpa using hb'
          decide
      · exfalso
        have hbn : b.getLast? = none := by
          rcases hqq : q.getLast? with _ | a
          · rw [hqq] at hc1
            simpa using hc1
          · rw [hqq] at hc1
            simp at hc1
        rw [hb2] at hbn
        simp at hbn
  have hcond : ((((pc :: p') ++ (b ++ q)).take 3) == fence3) = false := by
    rw [beq_eq_false_iff_ne]
    intro he
    have hh := take_eq_head he (by decide)
    rw [show ((pc :: p') ++ (b ++ q)).head? = some pc from rfl] at hh
    rw [show fence3.head? = some btick from rfl] at hh
    exact hpcb (by simpa using hh)
  simp only [extractJsonText]
  rw [hstrip, hcond]
  simp only [Bool.false_eq_true, if_false]
  exact extract_match_shape hb1 hb2 hpl hqr

/-- Extraction succeeds on a JSON object wrapped in code fences and prose
simultaneously (the fences are not stripped, but the bracket slice still
isolates the object). -/
theorem extract_both {b p q : List Char} (hb1 : b.head? = some lbrace)
    (hb2 : b.getLast? = some rbrace)
    (hpc : ∃ pc p', p = pc :: p' ∧ isPySpace pc = false ∧ pc ≠ btick)
    (hpl : lbrace ∉ p) (hqr : rbrace ∉ q)
    (hqe : ∀ c, q.getLast? = some c → isPySpace c = false) :
    extractJsonText (p ++ (fence3 ++ (b ++ (fence3 ++ q)))) = some b := by
  obtain ⟨pc, p', rfl, hpcs, hpcb⟩ := hpc
  have hstrip : pyStrip ((pc :: p') ++ (fence3 ++ (b ++ (fence3 ++ q)))) =
      (pc :: p') ++ (fence3 ++ (b ++ (fence3 ++ q))) := by
    refine pyStrip_eq_self ?_ ?_
    · intro c hc
      rw [show ((pc :: p') ++ (fence3 ++ (b ++ (fence3 ++ q)))).head? = some pc from rfl] at hc
      obtain rfl : pc = c := by simpa using hc
      exact hpcs
    · intro c hc
      rw [show (pc :: p') ++ (fence3 ++ (b ++ (fence3 ++ q))) =
        ((pc :: p') ++ (fence3 ++ b)) ++ (fence3 ++ q) by simp] at hc
      rw [List.getLast?_append, List.getLast?_append] at hc
      rcases or_eq_some_cases hc with hc1 | ⟨hc1, _⟩
      · rcases or_eq_some_cases hc1 with hq1 | ⟨_, hf⟩
        · exact hqe c hq1
        · rw [show fence3.getLast? = some btick from rfl] at hf
          obtain rfl : btick = c := by simpa using hf
          decide
      · exfalso
        rcases hqq : q.getLast? with _ | a
        · rw [hqq] at hc1
          rw [show fence3.getLast? = some btick from rfl] at hc1
          simpa using hc1
        · rw [hqq] at hc1
          simp at hc1
  have hcond : ((((pc :: p') ++ (fence3 ++ (b ++ (fence3 ++ q)))).take 3) == fence3) = false := by
    rw [beq_eq_false_iff_ne]
    intro he
    have hh := take_eq_head he (by decide)
    rw [show ((pc :: p') ++ (fence3 ++ (b ++ (fence3 ++ q)))).head? = some pc from rfl] at hh
    rw [show fence3.head? = some btick from rfl] at hh
    exact hpcb (by simpa using hh)
  simp only [extractJsonText]
  rw [hstrip, hcond]
  simp only [Bool.false_eq_true, if_false]
  rw [show (pc :: p') ++ (fence3 ++ (b ++ (fence3 ++ q))) =
    ((pc :: p') ++ fence3) ++ (b ++ (fence3 ++ q)) by simp]
  refine extract_match_shape hb1 hb2 ?_ ?_
  · intro hm
    rcases List.mem_append.mp hm with hm | hm
    · exact hpl hm
    · simp [fence3, lbrace, btick] at hm
  · intro hm
    rcases List.mem_append.mp hm with hm | hm
    · simp [fence3, rbrace, btick] at hm
    · exact hqr hm

/-- Extraction succeeds on a JSON object wrapped in Markdown code fences:
the fence markers are removed and the object is returned. -/
theorem extract_fenced {b : List Char} (hb1 : b.head? = some lbrace)
    (hb2 : b.getLast? = some rbrace) (hbt : btick ∉ b) :
    extractJsonText
      (fenceJson ++ (Char.ofNat 10 :: (b ++ (Char.ofNat 10 :: fence3)))) = some b := by
  set nl : Char := Char.ofNat 10 with hnl
  have hne_nl : nl ≠ btick := by rw [hnl]; decide
  have hstrip : pyStrip (fenceJson ++ (nl :: (b ++ (nl :: fence3)))) =
      fenceJson ++ (nl :: (b ++ (nl :: fence3))) := by
    refine pyStrip_eq_self ?_ ?_
    · intro c hc
      rw [show (fenceJson ++ (nl :: (b ++ (nl :: fence3)))).head? = some btick from rfl] at hc
      obtain rfl : btick = c := by simpa using hc
      decide
    · intro c hc
      rw [show fenceJson ++ (nl :: (b ++ (nl :: fence3))) =
        (fenceJson ++ (nl :: (b ++ [nl, btick, btick]))) ++ [btick] by simp [fence3]] at hc
      rw [List.getLast?_append] at hc
      obtain rfl : btick = c := by simpa using hc
      decide
  have hcond : (((fenceJson ++ (nl :: (b ++ (nl :: fence3)))).take 3) == fence3) = true := by
    rw [show (fenceJson ++ (nl :: (b ++ (nl :: fence3)))).take 3 = fence3 from rfl]
    exact beq_self_eq_true fence3
  have hnomatch1 : ∀ t, List.IsSuffix t (nl :: (b ++ (nl :: fence3))) →
      t.take fenceJson.length ≠ fenceJson ∨ fenceJson = [] := by
    intro t ht
    left
    intro he
    have hhead := take_eq_head he (by decide)
    rw [show fenceJson.head? = some btick from rfl] at hhead
    have ht' : List.IsSuffix t ([nl] ++ (b ++ ([nl] ++ fence3))) := ht
    rcases suffix_split ht' with ht2 | ⟨x', hx', hne, rfl⟩
    · rcases suffix_split ht2 with ht3 | ⟨x', hx', hne, rfl⟩
      · have hlen : t.length ≤ ([nl] ++ fence3).length := ht3.sublist.length_le
        rw [show ([nl] ++ fence3).length = 4 from rfl] at hlen
        exact take_ne_of_short _ (by rw [show fenceJson.length = 7 from rfl]; omega) he
      · obtain ⟨xc, xt, rfl⟩ : ∃ xc xt, x' = xc :: xt := by
          cases x' with
          | nil => exact absurd rfl hne
          | cons a t2 => exact ⟨a, t2, rfl⟩
        rw [show ((xc :: xt) ++ ([nl] ++ fence3)).head? = some xc from rfl] at hhead
        have hxm : xc ∈ b := hx'.sublist.subset (List.mem_cons_self xc xt)
        obtain rfl : xc = btick := by simpa using hhead
        exact hbt hxm
    · obtain ⟨xc, xt, rfl⟩ : ∃ xc xt, x' = xc :: xt := by
        cases x' with
        | nil => exact absurd rfl hne
        | cons a t2 => exact ⟨a, t2, rfl⟩
      have hxm : xc ∈ [nl] := hx'.sublist.subset (List.mem_cons_self xc xt)
      rw [show ((xc :: xt) ++ (b ++ ([nl] ++ fence3))).head? = some xc from rfl] at hhead
      obtain rfl : xc = btick := by simpa using hhead
      simp at hxm
      exact hne_nl hxm.symm
  have hrep1 : replaceDel (fenceJson ++ (nl :: (b ++ (nl :: fence3)))) fenceJson =
      nl :: (b ++ (nl :: fence3)) := by
    rw [show fenceJson ++ (nl :: (b ++ (nl :: fence3))) =
      (btick :: [btick, btick, 'j', 's', 'o', 'n']) ++ (nl :: (b ++ (nl :: fence3))) from rfl]
    rw [show fenceJson = btick :: [btick, btick, 'j', 's', 'o', 'n'] from rfl]
    rw [replaceDel_prefix_match]
    exact replaceDelF_id (fun t ht => hnomatch1 t ht) _
  have hnomatch2 : ∀ a, List.IsSuffix a (nl :: (b ++ [nl])) → a ≠ [] →
      (a ++ fence3).take fence3.length ≠ fence3 := by
    intro a ha hne he
    obtain ⟨ac, at2, rfl⟩ : ∃ ac at2, a = ac :: at2 := by
      cases a with
      | nil => exact absurd rfl hne
      | cons x t2 => exact ⟨x, t2, rfl⟩
    have hhead := take_eq_head he (by decide)
    rw [show ((ac :: at2) ++ fence3).head? = some ac from rfl] at hhead
    rw [show fence3.head? = some btick from rfl] at hhead
    obtain rfl : ac = btick := by simpa using hhead
    have hxm : btick ∈ nl :: (b ++ [nl]) := ha.sublist.subset (List.mem_cons_self _ _)
    rcases List.mem_cons.mp hxm with hx | hx
    · exact hne_nl hx.symm
    · rcases List.mem_append.mp hx with hx | hx
      · exact hbt hx
      · simp at hx
        exact hne_nl hx.symm
  have hrep2 : replaceDel (nl :: (b ++ (nl :: fence3))) fence3 = nl :: (b ++ [nl]) := by
    unfold replaceDel
    rw [show nl :: (b ++ (nl :: fence3)) = (nl :: (b ++ [nl])) ++ fence3 by simp [fence3]]
    rw [replaceDelF_walk (nl :: (b ++ [nl])) fence3 ((nl :: (b ++ [nl])) ++ fence3).length
      hnomatch2 (by simp)]
    rw [show ((nl :: (b ++ [nl])) ++ fence3).length - (nl :: (b ++ [nl])).length = 3 by
      simp [fence3]]
    rw [show replaceDelF fence3 3 fence3 = [] from rfl]
    simp
  simp only [extractJsonText]
  rw [hstrip, hcond]
  rw [if_pos rfl]
  rw [hrep1, hrep2]
  rw [show nl :: (b ++ [nl]) = [nl] ++ (b ++ [nl]) from rfl]
  refine extract_match_shape hb1 hb2 ?_ ?_
  · intro hm
    rw [hnl] at hm
    simp only [List.mem_singleton] at hm
    exact absurd hm (by decide)
  · intro hm
    rw [hnl] at hm
    simp only [List.mem_singleton] at hm
    exact absurd hm (by decide)

/-- Without a two-character brace span, the bracket slice is absent or empty:
either one bracket is missing, or the last 0x7d sits before the first 0x7b. -/
theorem bracket_slice_no_span {raw : List Char}
    (h : ¬ List.Sublist [lbrace, rbrace] raw) :
    (match pyFind lbrace raw, pyRfind rbrace raw with
      | some s, some e => some ((raw.drop s).take (e + 1 - s))
      | _, _ => none) = none ∨
    (match pyFind lbrace raw, pyRfind rbrace raw with
      | some s, some e => some ((raw.drop s).take (e + 1 - s))
      | _, _ => none) = some ([] : List Char) := by
  rcases hf : pyFind lbrace raw with _ | s <;> rcases hr : pyRfind rbrace raw with _ | e
  · left
    rfl
  · left
    rfl
  · left
    rfl
  · right
    show some ((raw.drop s).take (e + 1 - s)) = some []
    have hle : e + 1 - s = 0 := by
      by_contra hne
      have hse : s ≤ e := by omega
      obtain ⟨a, b, rfl, ha⟩ := pyFind_eq_some hf
      obtain ⟨a', b', hdec, ha'⟩ := pyRfind_eq_some hr
      rcases Nat.lt_or_ge s e with hlt | hge
      · have h1 : (a ++ lbrace :: b).drop (s + 1) = b := by
          rw [List.drop_append_eq_append_drop]
          rw [show a.drop (s + 1) = [] from List.drop_eq_nil_of_le (by omega)]
          rw [show s + 1 - a.length = 1 by omega]
          simp
        have h2 : (a' ++ rbrace :: b').drop (s + 1) =
            a'.drop (s + 1) ++ rbrace :: b' := by
          rw [List.drop_append_eq_append_drop]
          rw [show s + 1 - a'.length = 0 by omega]
          simp
        have hb : b = a'.drop (s + 1) ++ rbrace :: b' := by
          rw [← h1, hdec, h2]
        have hmem : rbrace ∈ b := by
          rw [hb]
          exact List.mem_append_right _ (List.mem_cons_self _ _)
        exact h (List.Sublist.trans
          (List.Sublist.cons₂ lbrace (List.singleton_sublist.mpr hmem))
          (List.sublist_append_right a (lbrace :: b)))
      · have heq : s = e := by omega
        have hlen : a.length = a'.length := by omega
        obtain ⟨-, hcons⟩ := List.append_inj hdec hlen
        have : lbrace = rbrace := by
          have := congrArg List.head? hcons
          simpa using this
        exact absurd this (by decide)
    rw [hle]
    simp

/-- The full extraction yields nothing (or the empty slice) on a response with
no brace span. -/
theorem extract_no_span {resp : List Char} (h : ¬ hasBraceSpan resp) :
    extractJsonText resp = none ∨ extractJsonText resp = some [] := by
  by_cases hc : (((pyStrip resp).take 3 == fence3) = true)
  · have hsub : List.Sublist
        (replaceDel (replaceDel (pyStrip resp) fenceJson) fence3) resp :=
      ((replaceDelF_sublist fence3 _ _).trans
        (replaceDelF_sublist fenceJson _ _)).trans (pyStrip_sublist resp)
    have hno : ¬ List.Sublist [lbrace, rbrace]
        (replaceDel (replaceDel (pyStrip resp) fenceJson) fence3) :=
      fun hs => h (hs.trans hsub)
    have hgoal := bracket_slice_no_span hno
    simp only [extractJsonText]
    rw [hc, if_pos rfl]
    exact hgoal
  · have hc' : (((pyStrip resp).take 3 == fence3) = false) := by
      rwa [Bool.not_eq_true] at hc
    have hno : ¬ List.Sublist [lbrace, rbrace] (pyStrip resp) :=
      fun hs => h (hs.trans (pyStrip_sublist resp))
    have hgoal := bracket_slice_no_span hno
    simp only [extractJsonText]
    rw [hc']
    simp only [Bool.false_eq_true, if_false]
    exact hgoal

/-- A model response without a brace span makes the whole attempt fail (the
`ValueError` or the JSON decode error is caught for that model). -/
theorem attempt_no_span {respond : List Char → Except Unit (List Char)}
    {m resp : List Char} (hr : respond m = .ok resp) (h : ¬ hasBraceSpan resp) :
    attemptModel respond m = .error () := by
  rcases extract_no_span h with he | he
  · simp [attemptModel, hr, he]
  · simp [attemptModel, hr, he, show jsonLoads [] = none from rfl]

/-- C3: the JSON extraction in `get_ai_quote` (strip, remove fence markers when
present, slice from the first 0x7b to the last 0x7d inclusive, parse) succeeds
when the response wraps the object in Markdown code fences, in prose, or in
both at once; and a response with no brace span makes the attempt for that
model fail with an error instead of returning a payload. -/
theorem c3_json_extraction :
    (∀ b : List Char, b.head? = some lbrace → b.getLast? = some rbrace → btick ∉ b →
      extractJsonText (fenceJson ++ (Char.ofNat 10 :: (b ++ (Char.ofNat 10 :: fence3)))) =
        some b) ∧
    (∀ b p q : List Char, b.head? = some lbrace → b.getLast? = some rbrace →
      (∃ pc p', p = pc :: p' ∧ isPySpace pc = false ∧ pc ≠ btick) →
      lbrace ∉ p → rbrace ∉ q → (∀ c, q.getLast? = some c → isPySpace c = false) →
      extractJsonText (p ++ (b ++ q)) = some b) ∧
    (∀ b p q : List Char, b.head? = some lbrace → b.getLast? = some rbrace →
      (∃ pc p', p = pc :: p' ∧ isPySpace pc = false ∧ pc ≠ btick) →
      lbrace ∉ p → rbrace ∉ q → (∀ c, q.getLast? = some c → isPySpace c = false) →
      extractJsonText (p ++ (fence3 ++ (b ++ (fence3 ++ q)))) = some b) ∧
    (∀ (respond : List Char → Except Unit (List Char)) (m resp : List Char),
      respond m = .ok resp → ¬ hasBraceSpan resp →
      attemptModel respond m = .error ()) := by
  refine ⟨?_, ?_, ?_, ?_⟩
  · intro b hb1 hb2 hbt
    exact extract_fenced hb1 hb2 hbt
  · intro b p q hb1 hb2 hpc hpl hqr hqe
    exact extract_prose hb1 hb2 hpc hpl hqr hqe
  · intro b p q hb1 hb2 hpc hpl hqr hqe
    exact extract_both hb1 hb2 hpc hpl hqr hqe
  · intro respond m resp hre hs
    exact attempt_no_span hre hs

/-- Witness for C3 at concrete responses: a fenced object, a prose-wrapped
object, a fenced object inside prose, and a brace-free response. -/
theorem c3_json_extraction_witness :
    extractJsonText (fenceJson ++ (Char.ofNat 10 ::
        ("\x7b\"a\":1\x7d".data ++ (Char.ofNat 10 :: fence3)))) =
      some ("\x7b\"a\":1\x7d".data) ∧
    extractJsonText ("Here: ".data ++ ("\x7b\"a\":1\x7d".data ++ " ok.".data)) =
      some ("\x7b\"a\":1\x7d".data) ∧
    extractJsonText ("Here: ".data ++
        (fence3 ++ ("\x7b\"a\":1\x7d".data ++ (fence3 ++ " ok.".data)))) =
      some ("\x7b\"a\":1\x7d".data) ∧
    attemptModel (fun _ => .ok "no json here".data) [] = .error () := by
  refine ⟨?_, ?_, ?_, ?_⟩
  · exact c3_json_extraction.1 _ (by decide) (by decide) (by decide)
  · exact c3_json_extraction.2.1 _ _ _ (by decide) (by decide)
      ⟨'H', "ere: ".data, rfl, by decide, by decide⟩ (by decide) (by decide)
      (by intro c hc
          rw [show (" ok.".data).getLast? = some ('.') from rfl] at hc
          cases hc
          decide)
  · exact c3_json_extraction.2.2.1 _ _ _ (by decide) (by decide)
      ⟨'H', "ere: ".data, rfl, by decide, by decide⟩ (by decide) (by decide)
      (by intro c hc
          rw [show (" ok.".data).getLast? = some ('.') from rfl] at hc
          cases hc
          decide)
  · exact c3_json_extraction.2.2.2 _ [] _ rfl
      (fun hs => absurd (hs.subset (List.mem_cons_self _ _)) (by decide))

/-! Lemmas about `wordsAux`/`wordsOf` (claim C2). -/

/-- Stepping `wordsAux` over a whitespace character flushes the accumulator. -/
theorem wordsAux_space {c : Char} (h : isPySpace c = true) (t acc : List Char) :
    wordsAux (c :: t) acc =
      (if acc.isEmpty then [] else [acc.reverse]) ++ wordsAux t [] := by
  by_cases ha : acc.isEmpty = true
  · simp [wordsAux, h, ha]
  · simp [wordsAux, h, ha]

/-- Stepping `wordsAux` over a non-whitespace character accumulates it. -/
theorem wordsAux_nonspace {c : Char} (h : isPySpace c = false) (t acc : List Char) :
    wordsAux (c :: t) acc = wordsAux t (c :: acc) := by
  simp [wordsAux, h]

/-- A whitespace run at the head is ignored when the accumulator is empty. -/
theorem wordsAux_space_run (u : List Char) (hu : ∀ x ∈ u, isPySpace x = true)
    (X : List Char) : wordsAux (u ++ X) [] = wordsAux X [] := by
  induction u with
  | nil => rfl
  | cons c t ih =>
    rw [List.cons_append, wordsAux_space (hu c (List.mem_cons_self _ _))]
    simpa using ih (fun x hx => hu x (List.mem_cons_of_mem _ hx))

/-- Leading whitespace does not contribute words. -/
theorem wordsOf_space_left {u : List Char} (hu : u.all isPySpace = true)
    (X : List Char) : wordsOf (u ++ X) = wordsOf X :=
  wordsAux_space_run u (fun x hx => List.all_eq_true.mp hu x hx) X

/-- One leading whitespace character does not contribute words. -/
theorem wordsOf_cons_space {c : Char} (h : isPySpace c = true) (X : List Char) :
    wordsOf (c :: X) = wordsOf X := by
  show wordsAux (c :: X) [] = wordsAux X []
  rw [wordsAux_space h]
  simp

/-- Splitting the word list at an internal whitespace character. -/
theorem wordsAux_split {c : Char} (h : isPySpace c = true) (b : List Char) :
    ∀ (a acc : List Char),
      wordsAux (a ++ c :: b) acc = wordsAux a acc ++ wordsAux b [] := by
  intro a
  induction a with
  | nil =>
    intro acc
    rw [List.nil_append, wordsAux_space h]
    by_cases ha : acc.isEmpty = true
    · simp [wordsAux, ha]
    · simp [wordsAux, ha]
  | cons x t ih =>
    intro acc
    cases hx : isPySpace x with
    | true =>
      rw [List.cons_append, wordsAux_space hx, wordsAux_space hx, ih]
      simp
    | false =>
      rw [List.cons_append, wordsAux_nonspace hx, wordsAux_nonspace hx, ih]

/-- `wordsOf` distributes over a whitespace separator. -/
theorem wordsOf_split {c : Char} (h : isPySpace c = true) (a b : List Char) :
    wordsOf (a ++ c :: b) = wordsOf a ++ wordsOf b :=
  wordsAux_split h b a []

/-- Consuming a run of non-whitespace characters reverses it onto the
accumulator. -/
theorem wordsAux_word_run (u : List Char) (hu : ∀ x ∈ u, isPySpace x = false) :
    ∀ (s acc : List Char), wordsAux (u ++ s) acc = wordsAux s (u.reverse ++ acc) := by
  induction u with
  | nil => intro s acc; simp
  | cons x t ih =>
    intro s acc
    rw [List.cons_append, wordsAux_nonspace (hu x (List.mem_cons_self _ _)),
      ih (fun y hy => hu y (List.mem_cons_of_mem _ hy))]
    simp

/-- A nonempty all-word chunk is one word. -/
theorem wordsOf_word_chunk {u : List Char} (hne : u ≠ [])
    (hu : ∀ x ∈ u, isPySpace x = false) : wordsOf u = [u] := by
  have h := wordsAux_word_run u hu [] []
  simp only [List.append_nil] at h
  show wordsAux u [] = [u]
  rw [h]
  show (if u.reverse.isEmpty then [] else [u.reverse.reverse]) = [u]
  rw [if_neg (by simp [hne]), List.reverse_reverse]

/-- An all-whitespace chunk contributes no words. -/
theorem wordsOf_space_chunk {u : List Char} (hu : u.all isPySpace = true) :
    wordsOf u = [] := by
  have h := wordsOf_space_left hu []
  rw [List.append_nil] at h
  rw [h]
  rfl

/-- Joining lines with newlines concatenates their word lists. -/
theorem wordsOf_joinNl (ls : List (List Char)) :
    wordsOf (joinNl ls) = (ls.map wordsOf).flatten := by
  induction ls with
  | nil => rfl
  | cons l ls ih =>
    cases ls with
    | nil => simp [joinNl]
    | cons m ms =>
      rw [show joinNl (l :: m :: ms) = l ++ Char.ofNat 10 :: joinNl (m :: ms) from rfl]
      rw [wordsOf_split (by decide), ih]
      simp

/-- A word chunk has whitespace-kind `false`. -/
theorem wordChunk_kind {c : List Char} (hne : c ≠ [])
    (hw : (c.all fun x => !isPySpace x) = true) : c.all isPySpace = false := by
  obtain ⟨x, xs, rfl⟩ : ∃ x xs, c = x :: xs := by
    cases c with
    | nil => exact absurd rfl hne
    | cons x xs => exact ⟨x, xs, rfl⟩
  have hx : isPySpace x = false := by
    have := List.all_eq_true.mp hw x (List.mem_cons_self _ _)
    simpa using this
  simp [List.all_cons, hx]

/-- On a well-formed chunk list, the words of the concatenation are the
concatenation of each chunk's words (no word straddles a chunk boundary). -/
theorem wordsOf_flatten : ∀ cs : List (List Char), goodChunks cs →
    wordsOf cs.flatten = (cs.map wordsOf).flatten := by
  intro cs
  induction cs with
  | nil => intro _; rfl
  | cons c rest ih =>
    rintro ⟨hu, hc⟩
    have hgr : goodChunks rest :=
      ⟨fun d hd => hu d (List.mem_cons_of_mem _ hd), hc.tail⟩
    obtain ⟨hne, hcase⟩ := hu c (List.mem_cons_self _ _)
    rcases hcase with hsp | hw
    · rw [List.flatten_cons, wordsOf_space_left hsp, ih hgr]
      rw [List.map_cons, List.flatten_cons, wordsOf_space_chunk hsp, List.nil_append]
    · cases rest with
      | nil => simp
      | cons d rest' =>
        have hrel : (c.all isPySpace) ≠ (d.all isPySpace) :=
          (List.chain'_cons.mp hc).1
        have hck : c.all isPySpace = false := wordChunk_kind hne hw
        have hdk : d.all isPySpace = true := by
          cases hdd : d.all isPySpace with
          | true => rfl
          | false => exact absurd (by rw [hck, hdd]) hrel
        obtain ⟨hdne, _⟩ := hu d (List.mem_cons_of_mem _ (List.mem_cons_self _ _))
        obtain ⟨dc, dt, rfl⟩ : ∃ dc dt, d = dc :: dt := by
          cases d with
          | nil => exact absurd rfl hdne
          | cons dc dt => exact ⟨dc, dt, rfl⟩
        have hdc : isPySpace dc = true :=
          List.all_eq_true.mp hdk dc (List.mem_cons_self _ _)
        have hfl : ((dc :: dt) :: rest').flatten = dc :: (dt ++ rest'.flatten) := by
          simp
        have hih := ih hgr
        rw [hfl, wordsOf_cons_space hdc] at hih
        rw [List.flatten_cons, hfl, wordsOf_split hdc, hih]
        simp

/-- The head of a `dropWhile` residue fails the predicate. -/
theorem head_dropWhile_false (p : Char → Bool) :
    ∀ (l : List Char) {d : Char} {t : List Char},
      l.dropWhile p = d :: t → p d = false := by
  intro l
  induction l with
  | nil => intro d t h; simp [List.dropWhile] at h
  | cons c cl ih =>
    intro d t h
    rw [List.dropWhile_cons] at h
    cases hpc : p c with
    | true => rw [hpc] at h; simp at h; exact ih h
    | false =>
      rw [hpc] at h
      simp at h
      obtain ⟨rfl, rfl⟩ := h
      exact hpc

/-- Without hyphens, the lazy word scan consumes exactly the maximal
non-whitespace run. -/
theorem scanWord_no_hyphen : ∀ (s : List Char) (q3 q2 q1 : Option Char), ('-') ∉ s →
    scanWord q3 q2 q1 s =
      (s.takeWhile (fun c => !isPySpace c), s.dropWhile (fun c => !isPySpace c)) := by
  intro s
  induction s with
  | nil => intro q3 q2 q1 _; rfl
  | cons c t ih =>
    intro q3 q2 q1 hm
    have hc : (c == '-') = false := by
      cases hcc : c == '-' with
      | true => exact absurd (List.mem_cons.mpr (Or.inl (eq_of_beq hcc).symm)) hm
      | false => rfl
    have hmt : ('-') ∉ t := fun ht => hm (List.mem_cons_of_mem _ ht)
    cases hsp : isPySpace c with
    | true =>
      rw [show scanWord q3 q2 q1 (c :: t) = ([], c :: t) by simp [scanWord, hsp]]
      simp [hsp]
    | false =>
      have hdash : dashRun (c :: t) = (0, c :: t) := by simp [dashRun, hc]
      have hem : emDashAt q1 (c :: t) = false := by
        simp [emDashAt, dashLookahead, hdash]
      rw [show scanWord q3 q2 q1 (c :: t) =
        (c :: (scanWord q2 q1 (some c) t).1, (scanWord q2 q1 (some c) t).2) by
          simp [scanWord, hsp, hc, hem]]
      rw [ih q2 q1 (some c) hmt]
      simp [hsp]

/-- Without hyphens, the splitter produces the alternating decomposition into
whitespace runs and words: its chunks concatenate back to the text, are
uniform and nonempty, alternate in kind, and the first chunk's kind is the
first character's. -/
theorem splitChunksF_spec : ∀ (fuel : Nat) (s : List Char) (p : Option Char × Option Char),
    ('-') ∉ s → s.length ≤ fuel →
    (splitChunksF fuel p s).flatten = s ∧
    (∀ c ∈ splitChunksF fuel p s, goodChunk c) ∧
    List.Chain' (fun a b => a.all isPySpace ≠ b.all isPySpace) (splitChunksF fuel p s) ∧
    (splitChunksF fuel p s).head?.map (fun c => c.all isPySpace) = s.head?.map isPySpace := by
  intro fuel
  induction fuel with
  | zero =>
    intro s p _ hlen
    obtain rfl : s = [] := List.length_eq_zero.mp (Nat.le_zero.mp hlen)
    exact ⟨rfl, fun c hc => absurd hc (List.not_mem_nil c), List.chain'_nil, rfl⟩
  | succ f ih =>
    intro s p hm hlen
    rcases p with ⟨p2, p1⟩
    cases s with
    | nil => exact ⟨rfl, fun c hc => absurd hc (List.not_mem_nil c), List.chain'_nil, rfl⟩
    | cons c t =>
      have hc : (c == '-') = false := by
        cases hcc : c == '-' with
        | true => exact absurd (List.mem_cons.mpr (Or.inl (eq_of_beq hcc).symm)) hm
        | false => rfl
      have hmt : ('-') ∉ t := fun ht => hm (List.mem_cons_of_mem _ ht)
      have hlent : t.length + 1 ≤ f + 1 := by simpa using hlen
      cases hsp : isPySpace c with
      | true =>
        have hwcons : (c :: t).takeWhile isPySpace = c :: t.takeWhile isPySpace := by
          simp [hsp]
        have hrd : (c :: t).dropWhile isPySpace = t.dropWhile isPySpace := by
          simp [hsp]
        have hlenr : ((c :: t).dropWhile isPySpace).length ≤ f := by
          rw [hrd]
          have h3 : t.takeWhile isPySpace ++ t.dropWhile isPySpace = t :=
            List.takeWhile_append_dropWhile isPySpace t
          have h4 := congrArg List.length h3
          rw [List.length_append] at h4
          omega
        have hmr : ('-') ∉ (c :: t).dropWhile isPySpace :=
          fun hx => hm ((List.dropWhile_sublist _).subset hx)
        obtain ⟨ih1, ih2, ih3, ih4⟩ :=
          ih ((c :: t).dropWhile isPySpace)
            (pushCtx p2 p1 ((c :: t).takeWhile isPySpace)) hmr hlenr
        have hstep : splitChunksF (f + 1) (p2, p1) (c :: t) =
            (c :: t).takeWhile isPySpace ::
              splitChunksF f (pushCtx p2 p1 ((c :: t).takeWhile isPySpace))
                ((c :: t).dropWhile isPySpace) := by
          simp [splitChunksF, hsp]
        have hwall : ((c :: t).takeWhile isPySpace).all isPySpace = true := by
          rw [List.all_eq_true]
          intro x hx
          exact List.mem_takeWhile_imp hx
        refine ⟨?_, ?_, ?_, ?_⟩
        · rw [hstep, List.flatten_cons, ih1, List.takeWhile_append_dropWhile]
        · rw [hstep]
          intro d hd
          rcases List.mem_cons.mp hd with rfl | hd
          · exact ⟨by rw [hwcons]; simp, Or.inl hwall⟩
          · exact ih2 d hd
        · rw [hstep, List.chain'_cons']
          refine ⟨?_, ih3⟩
          intro b hb
          have hbs : (splitChunksF f (pushCtx p2 p1 ((c :: t).takeWhile isPySpace))
              ((c :: t).dropWhile isPySpace)).head? = some b := hb
          rw [hbs] at ih4
          rcases hr0 : ((c :: t).dropWhile isPySpace) with _ | ⟨d, r'⟩
          · rw [hr0] at ih4
            simp at ih4
          · rw [hr0] at ih4
            have hd : isPySpace d = false := head_dropWhile_false _ _ hr0
            have hbk : b.all isPySpace = isPySpace d := by simpa using ih4
            rw [hwall, hbk, hd]
            simp
        · rw [hstep]
          simp [hwall, hsp]
      | false =>
        have hdash : dashRun (c :: t) = (0, c :: t) := by simp [dashRun, hc]
        have hem : emDashAt p1 (c :: t) = false := by
          simp [emDashAt, dashLookahead, hdash]
        have hstep : splitChunksF (f + 1) (p2, p1) (c :: t) =
            (c :: (scanWord p2 p1 (some c) t).1) ::
              splitChunksF f (pushCtx p2 p1 (c :: (scanWord p2 p1 (some c) t).1))
                ((scanWord p2 p1 (some c) t).2) := by
          simp [splitChunksF, hsp, hem]
        have hscan := scanWord_no_hyphen t p2 p1 (some c) hmt
        have hs1 : (scanWord p2 p1 (some c) t).1 =
            t.takeWhile (fun x => !isPySpace x) := by rw [hscan]
        have hs2 : (scanWord p2 p1 (some c) t).2 =
            t.dropWhile (fun x => !isPySpace x) := by rw [hscan]
        have hlenr : ((scanWord p2 p1 (some c) t).2).length ≤ f := by
          rw [hs2]
          have h3 : t.takeWhile (fun x => !isPySpace x) ++
              t.dropWhile (fun x => !isPySpace x) = t :=
            List.takeWhile_append_dropWhile (fun x => !isPySpace x) t
          have h4 := congrArg List.length h3
          rw [List.length_append] at h4
          omega
        have hmr : ('-') ∉ (scanWord p2 p1 (some c) t).2 := by
          rw [hs2]
          exact fun hx => hmt ((List.dropWhile_sublist _).subset hx)
        obtain ⟨ih1, ih2, ih3, ih4⟩ :=
          ih ((scanWord p2 p1 (some c) t).2)
            (pushCtx p2 p1 (c :: (scanWord p2 p1 (some c) t).1)) hmr hlenr
        have hwall : (c :: (scanWord p2 p1 (some c) t).1).all
            (fun x => !isPySpace x) = true := by
          rw [List.all_eq_true]
          intro x hx
          rcases List.mem_cons.mp hx with rfl | hx
          · simp [hsp]
          · rw [hs1] at hx
            have hx' := List.mem_takeWhile_imp hx
            simpa using hx'
        have hwk : (c :: (scanWord p2 p1 (some c) t).1).all isPySpace = false := by
          simp [List.all_cons, hsp]
        refine ⟨?_, ?_, ?_, ?_⟩
        · rw [hstep, List.flatten_cons, ih1, hs1, hs2, List.cons_append,
            List.takeWhile_append_dropWhile]
        · rw [hstep]
          intro d hd
          rcases List.mem_cons.mp hd with rfl | hd
          · exact ⟨by simp, Or.inr hwall⟩
          · exact ih2 d hd
        · rw [hstep, List.chain'_cons']
          refine ⟨?_, ih3⟩
          intro b hb
          have hbs : (splitChunksF f (pushCtx p2 p1 (c :: (scanWord p2 p1 (some c) t).1))
              ((scanWord p2 p1 (some c) t).2)).head? = some b := hb
          rw [hbs] at ih4
          rcases hr0 : ((scanWord p2 p1 (some c) t).2) with _ | ⟨d, r'⟩
          · rw [hr0] at ih4
            simp at ih4
          · rw [hr0] at ih4
            have hd : (!isPySpace d) = false := by
              have := head_dropWhile_false (fun x => !isPySpace x) t (hs2 ▸ hr0)
              simpa using this
            have hd' : isPySpace d = true := by simpa using hd
            have hbk : b.all isPySpace = isPySpace d := by simpa using ih4
            rw [hwk, hbk, hd']
            simp
        · rw [hstep]
          simp [hwk, hsp]

/-- The chunks popped by `fitChunks` and the remainder concatenate to the
input. -/
theorem fitChunks_append (width : Nat) :
    ∀ (cs : List (List Char)) (cur : Nat),
      (fitChunks width cur cs).1 ++ (fitChunks width cur cs).2 = cs := by
  intro cs
  induction cs with
  | nil => intro cur; rfl
  | cons c rest ih =>
    intro cur
    by_cases hfit : cur + c.length ≤ width
    · rw [show fitChunks width cur (c :: rest) =
        (c :: (fitChunks width (cur + c.length) rest).1,
          (fitChunks width (cur + c.length) rest).2) by
          simp [fitChunks, hfit]]
      rw [List.cons_append, ih]
    · rw [show fitChunks width cur (c :: rest) = ([], c :: rest) by
        simp [fitChunks, hfit]]
      rfl

/-- The popped chunks never overflow the width. -/
theorem fitChunks_sum (width : Nat) :
    ∀ (cs : List (List Char)) (cur : Nat), cur ≤ width →
      cur + (((fitChunks width cur cs).1.map List.length).sum) ≤ width := by
  intro cs
  induction cs with
  | nil => intro cur h; simpa [fitChunks] using h
  | cons c rest ih =>
    intro cur h
    by_cases hfit : cur + c.length ≤ width
    · rw [show fitChunks width cur (c :: rest) =
        (c :: (fitChunks width (cur + c.length) rest).1,
          (fitChunks width (cur + c.length) rest).2) by
          simp [fitChunks, hfit]]
      have := ih (cur + c.length) hfit
      simp only [List.map_cons, List.sum_cons]
      omega
    · rw [show fitChunks width cur (c :: rest) = ([], c :: rest) by
        simp [fitChunks, hfit]]
      simpa using h

/-- The two pieces of a broken long word concatenate to the word. -/
theorem handleLongWord_append (width cur : Nat) (c : List Char) :
    (handleLongWord width cur c).1 ++ (handleLongWord width cur c).2 = c := by
  unfold handleLongWord
  exact List.take_append_drop _ _

/-- A hit of `rfind('-', 0, stop)` lies below the stop and inside the chunk. -/
theorem pyRfindHyphen_lt {c : List Char} {stop hy : Nat}
    (h : pyRfindHyphen c stop = some hy) : hy < stop ∧ hy < c.length := by
  have hmem := List.mem_of_find?_eq_some h
  rw [List.mem_reverse, List.mem_range] at hmem
  omega

/-- `_handle_long_word` splits the chunk at an index bounded by the remaining
space (and positive whenever the remaining space is). -/
theorem handleLongWord_cases (width cur : Nat) (c : List Char) :
    ∃ e, handleLongWord width cur c = (c.take e, c.drop e) ∧
      e ≤ (if width < 1 then 1 else width - cur) ∧
      (1 ≤ (if width < 1 then 1 else width - cur) → 1 ≤ e) := by
  unfold handleLongWord
  dsimp only
  refine ⟨_, rfl, ?_⟩
  by_cases h1 : (if width < 1 then 1 else width - cur) < c.length
  · rw [if_pos h1]
    rcases hrf : pyRfindHyphen c (if width < 1 then 1 else width - cur) with _ | hy
    · show (if width < 1 then 1 else width - cur) ≤ (if width < 1 then 1 else width - cur) ∧
        (1 ≤ (if width < 1 then 1 else width - cur) →
          1 ≤ (if width < 1 then 1 else width - cur))
      exact ⟨le_refl _, fun h => h⟩
    · obtain ⟨hlt, _⟩ := pyRfindHyphen_lt hrf
      show (if (decide (0 < hy) && ((List.take hy c).any fun x => !(x == '-'))) = true
            then hy + 1 else if width < 1 then 1 else width - cur) ≤
            (if width < 1 then 1 else width - cur) ∧
          (1 ≤ (if width < 1 then 1 else width - cur) →
            1 ≤ (if (decide (0 < hy) && ((List.take hy c).any fun x => !(x == '-'))) = true
              then hy + 1 else if width < 1 then 1 else width - cur))
      by_cases hc : (decide (0 < hy) && ((List.take hy c).any fun x => !(x == '-'))) = true
      · rw [if_pos hc]
        exact ⟨by omega, fun _ => by omega⟩
      · rw [if_neg hc]
        exact ⟨le_refl _, fun h => h⟩
  · rw [if_neg h1]
    exact ⟨le_refl _, fun h => h⟩

/-- The piece kept on the line fits into the remaining space. -/
theorem handleLongWord_le (width cur : Nat) (c : List Char) :
    (handleLongWord width cur c).1.length ≤
      (if width < 1 then 1 else width - cur) := by
  obtain ⟨e, heq, hle, _⟩ := handleLongWord_cases width cur c
  rw [heq]
  exact le_trans (List.length_take_le _ _) hle

/-- Both pieces of a broken chunk keep any character-wise invariant. -/
theorem handleLongWord_all (width cur : Nat) (c : List Char) (p : Char → Bool)
    (h : c.all p = true) :
    (handleLongWord width cur c).1.all p = true ∧
      (handleLongWord width cur c).2.all p = true := by
  rw [List.all_eq_true] at h
  constructor
  · rw [List.all_eq_true]
    intro x hx
    exact h x ((List.take_sublist _ _).subset hx)
  · rw [List.all_eq_true]
    intro x hx
    exact h x ((List.drop_sublist _ _).subset hx)

/-- When the chunk exceeds the remaining space, the remainder piece is
nonempty. -/
theorem handleLongWord_drop_ne (width cur : Nat) (c : List Char)
    (h : (if width < 1 then 1 else width - cur) < c.length) :
    (handleLongWord width cur c).2 ≠ [] := by
  obtain ⟨e, heq, hle, _⟩ := handleLongWord_cases width cur c
  rw [heq]
  intro hnil
  rw [List.drop_eq_nil_iff] at hnil
  omega

/-- The remainder never grows. -/
theorem handleLongWord_drop_le (width cur : Nat) (c : List Char) :
    (handleLongWord width cur c).2.length ≤ c.length := by
  unfold handleLongWord
  dsimp only
  rw [List.length_drop]
  omega

/-- With a positive width, a chunk longer than the whole width loses at least
one character to the line (the line was empty, so the full remaining space is
the width). -/
theorem handleLongWord_drop_lt (width : Nat) (hw : 1 ≤ width) (c : List Char)
    (h : width < c.length) :
    (handleLongWord width 0 c).2.length < c.length := by
  obtain ⟨e, heq, hle, hpos⟩ := handleLongWord_cases width 0 c
  rw [heq]
  rw [List.length_drop]
  have hw' : ¬ width < 1 := by omega
  rw [if_neg hw'] at hpos
  have he1 : 1 ≤ e := hpos (by omega)
  omega

/-- Length of a concatenation of chunks. -/
theorem length_flatten_eq (l : List (List Char)) :
    l.flatten.length = (l.map List.length).sum := by
  induction l with
  | nil => rfl
  | cons a t ih => simp [ih]

/-- Sums only shrink along sublists of naturals. -/
theorem sum_le_of_sublist : ∀ {l1 l2 : List Nat}, List.Sublist l1 l2 →
    l1.sum ≤ l2.sum := by
  intro l1 l2 h
  induction h with
  | slnil => exact le_refl 0
  | cons a _ ih => rw [List.sum_cons]; omega
  | cons₂ a _ ih => rw [List.sum_cons, List.sum_cons]; omega

/-- Dropping the last chunk does not lengthen the line. -/
theorem sum_map_dropLast_le (l : List (List Char)) :
    (l.dropLast.map List.length).sum ≤ (l.map List.length).sum :=
  sum_le_of_sublist ((List.dropLast_sublist l).map _)

/-- Every line `wrapLine` emits fits in the width. -/
theorem wrapLine_some_le {width : Nat} (hw : 1 ≤ width) {cs1 : List (List Char)}
    {line : List Char} {rest : List (List Char)}
    (h : wrapLine width cs1 = (some line, rest)) : line.length ≤ width := by
  have hsum0 := fitChunks_sum width cs1 0 (Nat.zero_le _)
  rw [Nat.zero_add] at hsum0
  unfold wrapLine at h
  dsimp only at h
  rcases hfc : fitChunks width 0 cs1 with ⟨p, r⟩
  rw [hfc] at h hsum0
  dsimp only at h hsum0
  have hfin : ∀ (gl : List (List Char)), (gl.map List.length).sum ≤ width →
      ∀ (g2 : List (List Char)),
      (if (match gl.getLast? with
            | some l => if l.all isPySpace then gl.dropLast else gl
            | none => gl).isEmpty = true then (none, g2)
        else (some (match gl.getLast? with
            | some l => if l.all isPySpace then gl.dropLast else gl
            | none => gl).flatten, g2)) = (some line, rest) →
      line.length ≤ width := by
    intro gl hgl g2 hh
    rcases hlast : gl.getLast? with _ | l
    · rw [hlast] at hh
      dsimp only at hh
      split at hh
      · exact absurd hh (by simp)
      · injection hh with h1 h2
        injection h1 with h1
        rw [← h1, length_flatten_eq]
        exact hgl
    · rw [hlast] at hh
      dsimp only at hh
      by_cases hsp : l.all isPySpace = true
      · rw [if_pos hsp] at hh
        split at hh
        · exact absurd hh (by simp)
        · injection hh with h1 h2
          injection h1 with h1
          rw [← h1, length_flatten_eq]
          exact le_trans (sum_map_dropLast_le gl) hgl
      · rw [if_neg hsp] at hh
        split at hh
        · exact absurd hh (by simp)
        · injection hh with h1 h2
          injection h1 with h1
          rw [← h1, length_flatten_eq]
          exact hgl
  rcases r with _ | ⟨c, tail⟩
  · dsimp only at h
    exact hfin p hsum0 _ h
  · dsimp only at h
    by_cases hlen : width < c.length
    · rw [if_pos hlen] at h
      rcases hhl : handleLongWord width ((p.map List.length).sum) c with ⟨hl1, hl2⟩
      rw [hhl] at h
      dsimp only at h
      have hl1le := handleLongWord_le width ((p.map List.length).sum) c
      rw [hhl] at hl1le
      dsimp only at hl1le
      rw [if_neg (by omega : ¬ width < 1)] at hl1le
      refine hfin (p ++ [hl1]) ?_ _ h
      rw [List.map_append, List.sum_append]
      simp only [List.map_cons, List.map_nil, List.sum_cons, List.sum_nil]
      omega
    · rw [if_neg hlen] at h
      dsimp only at h
      exact hfin p hsum0 _ h

/-- Every line `wrapStep` emits fits in the width. -/
theorem wrapStep_some_le {width : Nat} (hw : 1 ≤ width) {isFirst : Bool}
    {cs0 : List (List Char)} {line : List Char} {rest : List (List Char)}
    (h : wrapStep width isFirst cs0 = (some line, rest)) : line.length ≤ width := by
  unfold wrapStep at h
  exact wrapLine_some_le hw h

/-- Every line the wrapping loop produces fits in the width. -/
theorem wrapLoopF_le {width : Nat} (hw : 1 ≤ width) :
    ∀ (fuel : Nat) (isFirst : Bool) (cs : List (List Char)) (l : List Char),
      l ∈ wrapLoopF fuel width isFirst cs → l.length ≤ width := by
  intro fuel
  induction fuel with
  | zero => intro isFirst cs l hl; simp [wrapLoopF] at hl
  | succ f ih =>
    intro isFirst cs l hl
    cases cs with
    | nil => simp [wrapLoopF] at hl
    | cons c t =>
      rcases hws : wrapStep width isFirst (c :: t) with ⟨opt, rest⟩
      rcases opt with _ | eline
      · rw [show wrapLoopF (f + 1) width isFirst (c :: t) =
          wrapLoopF f width isFirst rest by rw [wrapLoopF, hws]] at hl
        exact ih isFirst rest l hl
      · rw [show wrapLoopF (f + 1) width isFirst (c :: t) =
          eline :: wrapLoopF f width false rest by rw [wrapLoopF, hws]] at hl
        rcases List.mem_cons.mp hl with rfl | hl
        · exact wrapStep_some_le hw hws
        · exact ih false rest l hl

/-- The measure is additive. -/
theorem chunksMeasure_append (a b : List (List Char)) :
    chunksMeasure (a ++ b) = chunksMeasure a + chunksMeasure b := by
  simp [chunksMeasure]
  omega

/-- A nonempty chunk list has positive measure. -/
theorem chunksMeasure_pos {cs : List (List Char)} (h : cs ≠ []) :
    1 ≤ chunksMeasure cs := by
  cases cs with
  | nil => exact absurd rfl h
  | cons c t => simp [chunksMeasure]; omega

/-- Well-formedness restricts to the parts of a concatenation. -/
theorem goodChunks_append_parts {a b : List (List Char)}
    (h : goodChunks (a ++ b)) : goodChunks a ∧ goodChunks b := by
  obtain ⟨hu, hc⟩ := h
  rw [List.chain'_append] at hc
  exact ⟨⟨fun c hc' => hu c (List.mem_append_left _ hc'), hc.1⟩,
    ⟨fun c hc' => hu c (List.mem_append_right _ hc'), hc.2.1⟩⟩

/-- A chunk-list decomposition at a known last element. -/
theorem getLast?_decomp_chunks {l : List (List Char)} {x : List Char}
    (h : l.getLast? = some x) : ∃ l', l = l' ++ [x] := by
  rw [← List.head?_reverse] at h
  cases hrev : l.reverse with
  | nil => rw [hrev] at h; simp at h
  | cons c t =>
    rw [hrev] at h
    obtain rfl : c = x := by simpa using h
    refine ⟨t.reverse, ?_⟩
    have := congrArg List.reverse hrev
    rw [List.reverse_reverse] at this
    rw [this]
    simp

/-- The word lists of a concatenation of chunk lists. -/
theorem flatten_map_words_append (a b : List (List Char)) :
    ((a ++ b).map wordsOf).flatten = (a.map wordsOf).flatten ++ (b.map wordsOf).flatten := by
  simp

/-- A rejected head chunk does not fit. -/
theorem fitChunks_reject {width cur : Nat} {cs : List (List Char)}
    {d : List Char} {t : List (List Char)}
    (h : fitChunks width cur cs = ([], d :: t)) : width < cur + d.length := by
  cases cs with
  | nil => simp [fitChunks] at h
  | cons c rest =>
    by_cases hfit : cur + c.length ≤ width
    · rw [show fitChunks width cur (c :: rest) =
        (c :: (fitChunks width (cur + c.length) rest).1,
          (fitChunks width (cur + c.length) rest).2) by
          simp [fitChunks, hfit]] at h
      exact absurd (congrArg Prod.fst h) (by simp)
    · rw [show fitChunks width cur (c :: rest) = ([], c :: rest) by
        simp [fitChunks, hfit]] at h
      injection h with h1 h2
      injection h2 with h2 h3
      rw [h2] at hfit
      omega

/-- The emission step of `wrapLine` on a well-formed line: the rest passes
through, and the emitted line carries exactly the line chunks' words. -/
theorem wrapLine_emit {gl g2 : List (List Char)} {opt : Option (List Char)}
    {rest : List (List Char)} (hg : goodChunks gl)
    (h : (if (match gl.getLast? with
          | some l => if l.all isPySpace then gl.dropLast else gl
          | none => gl).isEmpty = true then (none, g2)
        else (some (match gl.getLast? with
          | some l => if l.all isPySpace then gl.dropLast else gl
          | none => gl).flatten, g2)) = (opt, rest)) :
    rest = g2 ∧ (opt.elim [] wordsOf) = (gl.map wordsOf).flatten := by
  rcases hlast : gl.getLast? with _ | l
  · have hnil : gl = [] := by
      cases gl with
      | nil => rfl
      | cons a t => simp at hlast
    subst hnil
    rw [hlast] at h
    dsimp only at h
    rw [if_pos (by rfl)] at h
    injection h with h1 h2
    exact ⟨h2.symm, by rw [← h1]; rfl⟩
  · obtain ⟨init, rfl⟩ := getLast?_decomp_chunks hlast
    rw [hlast] at h
    dsimp only at h
    by_cases hsp : l.all isPySpace = true
    · rw [if_pos hsp, List.dropLast_concat] at h
      by_cases hie : init.isEmpty = true
      · rw [if_pos hie] at h
        injection h with h1 h2
        have hpe : init = [] := by rwa [List.isEmpty_iff] at hie
        subst hpe
        refine ⟨h2.symm, ?_⟩
        rw [← h1]
        simp [wordsOf_space_chunk hsp]
      · rw [if_neg hie] at h
        injection h with h1 h2
        refine ⟨h2.symm, ?_⟩
        rw [← h1]
        dsimp only [Option.elim]
        have hgi : goodChunks init := (goodChunks_append_parts hg).1
        rw [wordsOf_flatten init hgi, flatten_map_words_append]
        simp [wordsOf_space_chunk hsp]
    · rw [if_neg hsp] at h
      rw [if_neg (by simp : ¬ ((init ++ [l]).isEmpty = true))] at h
      injection h with h1 h2
      refine ⟨h2.symm, ?_⟩
      rw [← h1]
      dsimp only [Option.elim]
      exact wordsOf_flatten _ hg

/-- The emission step when the line chunks end in an (arbitrary, possibly
empty) whitespace piece: the piece is pruned and contributes no words. -/
theorem wrapLine_emit_space {p : List (List Char)} {s : List Char}
    {g2 rest : List (List Char)} {opt : Option (List Char)}
    (hgp : goodChunks p) (hs : s.all isPySpace = true)
    (h : (if (match (p ++ [s]).getLast? with
          | some l => if l.all isPySpace then (p ++ [s]).dropLast else p ++ [s]
          | none => p ++ [s]).isEmpty = true then (none, g2)
        else (some (match (p ++ [s]).getLast? with
          | some l => if l.all isPySpace then (p ++ [s]).dropLast else p ++ [s]
          | none => p ++ [s]).flatten, g2)) = (opt, rest)) :
    rest = g2 ∧ (opt.elim [] wordsOf) = (p.map wordsOf).flatten := by
  rw [show (p ++ [s]).getLast? = some s by simp] at h
  dsimp only at h
  rw [if_pos hs, List.dropLast_concat] at h
  by_cases hie : p.isEmpty = true
  · rw [if_pos hie] at h
    injection h with h1 h2
    have hpe : p = [] := by rwa [List.isEmpty_iff] at hie
    subst hpe
    exact ⟨h2.symm, by rw [← h1]; rfl⟩
  · rw [if_neg hie] at h
    injection h with h1 h2
    refine ⟨h2.symm, ?_⟩
    rw [← h1]
    dsimp only [Option.elim]
    exact wordsOf_flatten p hgp

/-- One `wrapLine` pass on well-formed, width-bounded chunks: the emitted
words plus the remaining words are exactly the input words, well-formedness
and the bound are preserved, and the measure strictly drops (unless the input
was empty). -/
theorem wrapLine_words {width : Nat} (hw : 1 ≤ width) {cs1 : List (List Char)}
    {opt : Option (List Char)} {rest : List (List Char)}
    (hg : goodChunks cs1) (hb : wordBound width cs1)
    (h : wrapLine width cs1 = (opt, rest)) :
    (opt.elim [] wordsOf) ++ wordsOf rest.flatten = wordsOf cs1.flatten ∧
    goodChunks rest ∧ wordBound width rest ∧
    (cs1 = [] ∧ rest = [] ∨ chunksMeasure rest < chunksMeasure cs1) := by
  unfold wrapLine at h
  dsimp only at h
  rcases hfc : fitChunks width 0 cs1 with ⟨p, r⟩
  have hsplit : p ++ r = cs1 := by
    have h2 := fitChunks_append width cs1 0
    rw [hfc] at h2
    exact h2
  rw [hfc] at h
  dsimp only at h
  subst hsplit
  obtain ⟨hgp, hgr⟩ := goodChunks_append_parts hg
  have hbp : wordBound width p := fun c hc => hb c (List.mem_append_left _ hc)
  have hbr : wordBound width r := fun c hc => hb c (List.mem_append_right _ hc)
  rcases r with _ | ⟨c, tail⟩
  · dsimp only at h
    obtain ⟨hrest, hline⟩ := wrapLine_emit hgp h
    subst hrest
    refine ⟨?_, ?_, ?_, ?_⟩
    · rw [hline]
      rw [show (([] : List (List Char)).flatten) = [] from rfl,
        show wordsOf [] = [] from rfl, List.append_nil, List.append_nil]
      exact (wordsOf_flatten p hgp).symm
    · exact ⟨fun c hc => absurd hc (List.not_mem_nil c), List.chain'_nil⟩
    · exact fun c hc => absurd hc (List.not_mem_nil c)
    · rcases p with _ | ⟨d, q⟩
      · exact Or.inl ⟨rfl, rfl⟩
      · right
        rw [List.append_nil, show chunksMeasure [] = 0 from rfl]
        exact chunksMeasure_pos (by simp)
  · dsimp only at h
    have hgtail : goodChunks tail :=
      ⟨fun x hx => hgr.1 x (List.mem_cons_of_mem _ hx), hgr.2.tail⟩
    by_cases hlen : width < c.length
    · rw [if_pos hlen] at h
      have hcsp : c.all isPySpace = true := by
        rcases hbr c (List.mem_cons_self _ _) with hsp | hle
        · exact hsp
        · omega
      rcases hhl : handleLongWord width ((p.map List.length).sum) c with ⟨hl1, hl2⟩
      rw [hhl] at h
      dsimp only at h
      have hall := handleLongWord_all width ((p.map List.length).sum) c isPySpace hcsp
      rw [hhl] at hall
      dsimp only at hall
      have hSL : (if width < 1 then 1 else width - (p.map List.length).sum) < c.length := by
        rw [if_neg (by omega : ¬ width < 1)]
        omega
      have hl2ne : hl2 ≠ [] := by
        have hne := handleLongWord_drop_ne width ((p.map List.length).sum) c hSL
        rw [hhl] at hne
        exact hne
      have hl2le : hl2.length ≤ c.length := by
        have hle := handleLongWord_drop_le width ((p.map List.length).sum) c
        rw [hhl] at hle
        exact hle
      obtain ⟨hrest, hline⟩ := wrapLine_emit_space hgp hall.1 h
      subst hrest
      refine ⟨?_, ?_, ?_, Or.inr ?_⟩
      · rw [hline]
        rw [show (hl2 :: tail).flatten = hl2 ++ tail.flatten from rfl,
          wordsOf_space_left hall.2]
        rw [wordsOf_flatten _ hg, flatten_map_words_append, List.map_cons,
          List.flatten_cons, wordsOf_space_chunk hcsp, List.nil_append]
        rw [wordsOf_flatten tail hgtail]
      · refine ⟨?_, ?_⟩
        · intro x hx
          rcases List.mem_cons.mp hx with rfl | hx
          · exact ⟨hl2ne, Or.inl hall.2⟩
          · exact hgr.1 x (List.mem_cons_of_mem _ hx)
        · rw [List.chain'_cons']
          refine ⟨?_, hgr.2.tail⟩
          intro b hb'
          have hcb := (List.chain'_cons'.mp hgr.2).1 b hb'
          rw [hall.2]
          rw [hcsp] at hcb
          exact hcb
      · intro x hx
        rcases List.mem_cons.mp hx with rfl | hx
        · exact Or.inl hall.2
        · exact hbr x (List.mem_cons_of_mem _ hx)
      · rcases p with _ | ⟨d, q⟩
        · rw [show ((List.map List.length ([] : List (List Char))).sum) = 0 from rfl] at hhl
          have hlt := handleLongWord_drop_lt width hw c hlen
          rw [hhl] at hlt
          dsimp only at hlt
          rw [List.nil_append]
          simp only [chunksMeasure, List.map_cons, List.sum_cons, List.length_cons]
          omega
        · rw [chunksMeasure_append]
          have hp1 : 1 ≤ chunksMeasure (d :: q) := chunksMeasure_pos (by simp)
          simp only [chunksMeasure, List.map_cons, List.sum_cons, List.length_cons]
            at hp1 ⊢
          omega
    · rw [if_neg hlen] at h
      dsimp only at h
      rcases p with _ | ⟨d, q⟩
      · have hrej := fitChunks_reject hfc
        omega
      · obtain ⟨hrest, hline⟩ := wrapLine_emit hgp h
        subst hrest
        refine ⟨?_, hgr, hbr, Or.inr ?_⟩
        · rw [hline]
          rw [wordsOf_flatten _ hg, flatten_map_words_append,
            wordsOf_flatten _ hgr]
        · rw [chunksMeasure_append]
          have hp1 : 1 ≤ chunksMeasure (d :: q) := chunksMeasure_pos (by simp)
          omega

/-- One `wrapStep` pass (including the leading-whitespace drop) preserves the
word sequence, well-formedness and the bound, and strictly shrinks the
measure on nonempty input. -/
theorem wrapStep_words {width : Nat} (hw : 1 ≤ width) {cs : List (List Char)}
    {isFirst : Bool} {opt : Option (List Char)} {rest : List (List Char)}
    (hg : goodChunks cs) (hb : wordBound width cs)
    (h : wrapStep width isFirst cs = (opt, rest)) :
    (opt.elim [] wordsOf) ++ wordsOf rest.flatten = wordsOf cs.flatten ∧
    goodChunks rest ∧ wordBound width rest ∧
    (cs = [] ∧ rest = [] ∨ chunksMeasure rest < chunksMeasure cs) := by
  unfold wrapStep at h
  cases cs with
  | nil =>
    dsimp only at h
    exact wrapLine_words hw hg hb h
  | cons c t =>
    dsimp only at h
    by_cases hdrop : (!isFirst && c.all isPySpace) = true
    · rw [if_pos hdrop] at h
      have hcsp : c.all isPySpace = true := by
        rw [Bool.and_eq_true] at hdrop
        exact hdrop.2
      have hgt : goodChunks t :=
        ⟨fun x hx => hg.1 x (List.mem_cons_of_mem _ hx), hg.2.tail⟩
      have hbt : wordBound width t := fun x hx => hb x (List.mem_cons_of_mem _ hx)
      obtain ⟨hwds, hgood, hbnd, hmeas⟩ := wrapLine_words hw hgt hbt h
      refine ⟨?_, hgood, hbnd, Or.inr ?_⟩
      · rw [show (c :: t).flatten = c ++ t.flatten from rfl, wordsOf_space_left hcsp]
        exact hwds
      · have hmle : chunksMeasure rest ≤ chunksMeasure t := by
          rcases hmeas with ⟨rfl, rfl⟩ | hlt
          · exact le_refl _
          · omega
        have hlt2 : chunksMeasure t < chunksMeasure (c :: t) := by
          simp only [chunksMeasure, List.map_cons, List.sum_cons, List.length_cons]
          omega
        omega
    · rw [if_neg hdrop] at h
      exact wrapLine_words hw hg hb h

/-- The wrapping loop, given enough fuel, reproduces exactly the words of its
chunks across the emitted lines. -/
theorem wrapLoopF_words {width : Nat} (hw : 1 ≤ width) :
    ∀ (fuel : Nat) (cs : List (List Char)) (isFirst : Bool),
      goodChunks cs → wordBound width cs → chunksMeasure cs < fuel →
      ((wrapLoopF fuel width isFirst cs).map wordsOf).flatten = wordsOf cs.flatten := by
  intro fuel
  induction fuel with
  | zero => intro cs isFirst _ _ hm; exact absurd hm (by omega)
  | succ f ih =>
    intro cs isFirst hg hb hm
    cases cs with
    | nil => rfl
    | cons c t =>
      rcases hws : wrapStep width isFirst (c :: t) with ⟨opt, rest⟩
      obtain ⟨hwds, hgood, hbnd, hmeas⟩ := wrapStep_words hw hg hb hws
      have hmlt : chunksMeasure rest < chunksMeasure (c :: t) := by
        rcases hmeas with ⟨hcs, _⟩ | hlt
        · exact absurd hcs (by simp)
        · exact hlt
      rcases opt with _ | line
      · rw [show wrapLoopF (f + 1) width isFirst (c :: t) =
          wrapLoopF f width isFirst rest by rw [wrapLoopF, hws]]
        rw [ih rest isFirst hgood hbnd (by omega)]
        simpa using hwds
      · rw [show wrapLoopF (f + 1) width isFirst (c :: t) =
          line :: wrapLoopF f width false rest by rw [wrapLoopF, hws]]
        rw [List.map_cons, List.flatten_cons]
        rw [ih rest false hgood hbnd (by omega)]
        exact hwds

/-- Translating whitespace characters to spaces does not change the words. -/
theorem wordsAux_map_munge : ∀ (u acc : List Char),
    wordsAux (u.map (fun c => if isPySpace c then ' ' else c)) acc =
      wordsAux u acc := by
  intro u
  induction u with
  | nil => intro acc; rfl
  | cons c t ih =>
    intro acc
    rw [List.map_cons]
    cases hsp : isPySpace c with
    | true =>
      rw [if_pos rfl]
      rw [wordsAux_space (by decide), wordsAux_space hsp, ih]
    | false =>
      rw [if_neg Bool.false_ne_true]
      rw [wordsAux_nonspace hsp, wordsAux_nonspace hsp, ih]

/-- A nonempty whitespace run at the head flushes the accumulator. -/
theorem wordsAux_space_run_acc (u : List Char) (hu : ∀ x ∈ u, isPySpace x = true)
    (hne : u ≠ []) (X acc : List Char) :
    wordsAux (u ++ X) acc =
      (if acc.isEmpty then [] else [acc.reverse]) ++ wordsAux X [] := by
  cases u with
  | nil => exact absurd rfl hne
  | cons c t =>
    rw [List.cons_append, wordsAux_space (hu c (List.mem_cons_self _ _))]
    rw [wordsAux_space_run t (fun x hx => hu x (List.mem_cons_of_mem _ hx)) X]

/-- Tab expansion does not change the words. -/
theorem wordsAux_expandTabs : ∀ (s : List Char) (col : Nat) (acc : List Char),
    wordsAux (expandTabsAux col s) acc = wordsAux s acc := by
  intro s
  induction s with
  | nil => intro col acc; rfl
  | cons c t ih =>
    intro col acc
    by_cases h9 : (c == Char.ofNat 9) = true
    · rw [show expandTabsAux col (c :: t) =
        List.replicate (8 - col % 8) ' ' ++ expandTabsAux (col + (8 - col % 8)) t by
          simp [expandTabsAux, h9]]
      have hrep : ∀ x ∈ List.replicate (8 - col % 8) ' ', isPySpace x = true := by
        intro x hx
        rw [List.eq_of_mem_replicate hx]
        decide
      have hmod : col % 8 < 8 := Nat.mod_lt col (by norm_num)
      have hne : List.replicate (8 - col % 8) ' ' ≠ [] := by
        intro he
        have hl := congrArg List.length he
        simp at hl
        omega
      rw [wordsAux_space_run_acc _ hrep hne, ih (col + (8 - col % 8)) []]
      have hcsp : isPySpace c = true := by rw [eq_of_beq h9]; decide
      rw [wordsAux_space hcsp]
    · by_cases h10 : (c == Char.ofNat 10 || c == Char.ofNat 13) = true
      · rw [show expandTabsAux col (c :: t) = c :: expandTabsAux 0 t by
          simp [expandTabsAux, h9, h10]]
        have hcsp : isPySpace c = true := by
          rcases Bool.or_eq_true_iff.mp h10 with h | h
          · rw [eq_of_beq h]; decide
          · rw [eq_of_beq h]; decide
        rw [wordsAux_space hcsp, wordsAux_space hcsp, ih 0 []]
      · rw [show expandTabsAux col (c :: t) = c :: expandTabsAux (col + 1) t by
          simp [expandTabsAux, h9, h10]]
        by_cases hcsp : isPySpace c = true
        · rw [wordsAux_space hcsp, wordsAux_space hcsp, ih (col + 1) []]
        · have hcs' : isPySpace c = false := by rwa [Bool.not_eq_true] at hcsp
          rw [wordsAux_nonspace hcs', wordsAux_nonspace hcs', ih (col + 1) (c :: acc)]

/-- `_munge_whitespace` does not change the words. -/
theorem wordsOf_munge (s : List Char) : wordsOf (mungeWhitespace s) = wordsOf s := by
  show wordsAux (mungeWhitespace s) [] = wordsAux s []
  unfold mungeWhitespace
  rw [wordsAux_map_munge, wordsAux_expandTabs]

/-- Tab expansion introduces only spaces. -/
theorem mem_expandTabs : ∀ (s : List Char) (col : Nat) (c : Char),
    c ∈ expandTabsAux col s → c = ' ' ∨ c ∈ s := by
  intro s
  induction s with
  | nil => intro col c h; simp [expandTabsAux] at h
  | cons d t ih =>
    intro col c h
    by_cases h9 : (d == Char.ofNat 9) = true
    · rw [show expandTabsAux col (d :: t) =
        List.replicate (8 - col % 8) ' ' ++ expandTabsAux (col + (8 - col % 8)) t by
          simp [expandTabsAux, h9]] at h
      rcases List.mem_append.mp h with h | h
      · exact Or.inl (List.eq_of_mem_replicate h)
      · rcases ih (col + (8 - col % 8)) c h with h | h
        · exact Or.inl h
        · exact Or.inr (List.mem_cons_of_mem _ h)
    · by_cases h10 : (d == Char.ofNat 10 || d == Char.ofNat 13) = true
      · rw [show expandTabsAux col (d :: t) = d :: expandTabsAux 0 t by
          simp [expandTabsAux, h9, h10]] at h
        rcases List.mem_cons.mp h with rfl | h
        · exact Or.inr (List.mem_cons_self _ _)
        · rcases ih 0 c h with h | h
          · exact Or.inl h
          · exact Or.inr (List.mem_cons_of_mem _ h)
      · rw [show expandTabsAux col (d :: t) = d :: expandTabsAux (col + 1) t by
          simp [expandTabsAux, h9, h10]] at h
        rcases List.mem_cons.mp h with rfl | h
        · exact Or.inr (List.mem_cons_self _ _)
        · rcases ih (col + 1) c h with h | h
          · exact Or.inl h
          · exact Or.inr (List.mem_cons_of_mem _ h)

/-- `_munge_whitespace` introduces no hyphen. -/
theorem hyphen_munge (s : List Char) (h : ('-') ∉ s) :
    ('-') ∉ mungeWhitespace s := by
  intro hm
  unfold mungeWhitespace at hm
  rw [List.mem_map] at hm
  obtain ⟨d, hd, hrepl⟩ := hm
  by_cases hsp : isPySpace d = true
  · rw [if_pos hsp] at hrepl
    exact absurd hrepl (by decide)
  · rw [if_neg hsp] at hrepl
    subst hrepl
    rcases mem_expandTabs s 0 _ hd with h1 | h1
    · exact absurd h1 (by decide)
    · exact h h1

/-- For hyphen-free text whose words fit in the width, wrapping at width 25
emits lines that carry exactly the original words in order. -/
theorem textwrapWrap_words {text : List Char} (hh : ('-') ∉ text)
    (hwb : ∀ w ∈ wordsOf text, w.length ≤ 25) :
    ((textwrapWrap 25 text).map wordsOf).flatten = wordsOf text := by
  have hm : ('-') ∉ mungeWhitespace text := hyphen_munge text hh
  obtain ⟨hflat0, hgood0, hchain0, _⟩ :=
    splitChunksF_spec (mungeWhitespace text).length (mungeWhitespace text)
      (none, none) hm (le_refl _)
  have hflat : (splitChunks (mungeWhitespace text)).flatten = mungeWhitespace text :=
    hflat0
  have hgood : ∀ c ∈ splitChunks (mungeWhitespace text), goodChunk c := hgood0
  have hgcs : goodChunks (splitChunks (mungeWhitespace text)) := ⟨hgood0, hchain0⟩
  have hwbd : wordBound 25 (splitChunks (mungeWhitespace text)) := by
    intro c hc
    obtain ⟨hne, hcase⟩ := hgood c hc
    rcases hcase with hsp | hword
    · exact Or.inl hsp
    · right
      have hcw : wordsOf c = [c] :=
        wordsOf_word_chunk hne (fun x hx => by
          have hx2 := List.all_eq_true.mp hword x hx
          simpa using hx2)
      have hmem : c ∈ wordsOf (mungeWhitespace text) := by
        rw [← hflat, wordsOf_flatten _ hgcs, List.mem_flatten]
        exact ⟨wordsOf c, List.mem_map_of_mem _ hc, by rw [hcw]; exact List.mem_cons_self _ _⟩
      rw [wordsOf_munge] at hmem
      exact hwb c hmem
  have hmain := wrapLoopF_words (by norm_num : (1 : Nat) ≤ 25)
    (chunksMeasure (splitChunks (mungeWhitespace text)) + 1)
    (splitChunks (mungeWhitespace text)) true hgcs hwbd (by omega)
  rw [show textwrapWrap 25 text =
    wrapLoopF (chunksMeasure (splitChunks (mungeWhitespace text)) + 1) 25 true
      (splitChunks (mungeWhitespace text)) from rfl]
  rw [hmain, hflat, wordsOf_munge]

/-- Claim C2 counterexample: a caption of 26 identical letters.  The wrapper
(width 25, `break_long_words=True`) splits the single 26-character word into
"a"*25 and "a", so re-joining the wrapped lines does not reproduce the
original word sequence. -/
theorem c2_counterexample :
    wordsOf (joinNl (wrappedLines (List.replicate 26 'a'))) ≠
      wordsOf (pyStrip (List.replicate 26 'a')) := by
  decide

/-- Claim C2, amended: every wrapped line fits in 25 characters (for every
caption); and re-joining the lines reproduces the original word sequence
provided every word of the stripped caption is at most 25 characters long
and the caption contains no hyphen (a longer word is broken by
`break_long_words`, and `break_on_hyphens` may split a hyphenated word across
lines). -/
theorem c2_amended :
    (∀ (quote : List Char), ∀ l ∈ wrappedLines quote, l.length ≤ 25) ∧
    (∀ (quote : List Char),
      (∀ w ∈ wordsOf (pyStrip quote), w.length ≤ 25) →
      ('-') ∉ pyStrip quote →
      wordsOf (joinNl (wrappedLines quote)) = wordsOf (pyStrip quote)) := by
  constructor
  · intro q l hl
    exact wrapLoopF_le (by norm_num) _ true _ l hl
  · intro q hwb hh
    rw [wordsOf_joinNl]
    exact textwrapWrap_words hh hwb

/-- Witness for C2 at a concrete caption: "hare krishna" wraps to a single
line within the width whose words are unchanged. -/
theorem c2_amended_witness :
    ("hare krishna".data).length ≤ 25 ∧
    wordsOf (joinNl (wrappedLines "hare krishna".data)) =
      wordsOf (pyStrip "hare krishna".data) :=
  ⟨c2_amended.1 "hare krishna".data "hare krishna".data (by decide),
   c2_amended.2 "hare krishna".data (by decide) (by decide)⟩
